import Mathlib

/-!
Verification development for the SCRIMP / PreSCRIMP anytime matrix-profile
engine (src/stumpy/scrimp.py) and the MPdist measure (src/stumpy/mpdist.py).

Modelling conventions.

Floating-point scalars are modelled by the type F below: NaN, +inf, -inf, or
a finite value represented exactly as a rational.  Arithmetic on F follows the
IEEE-754 special-value rules (inf - inf = NaN, inf * 0 = NaN, comparisons with
NaN are false, and so on); finite arithmetic is exact rational arithmetic, the
usual idealisation of float arithmetic.

Python integer arithmetic is modelled with Int/Nat; Python's negative-index
wraparound for sequence indexing is modelled by pyIdx below, and writes that
would be out of range in Python are modelled as no-ops (the theorems'
hypotheses keep all accesses in range on the paths the claims are about).

numpy's np.sqrt is applied by the engine only at the very end of _scrimp and
_prescrimp, element-wise on a table of squared distances, and the results are
afterwards only compared (never added or multiplied).  Since the square root
is strictly increasing on [0, inf], sends +inf to +inf, and sends negative
values and NaN to NaN, a square-root value is represented exactly by its
radicand: the wrapper type Rt below carries the radicand, and Rt.lt implements
the IEEE comparison of the square roots (via the radicands, normalising
negative radicands and NaN radicands to NaN).  Rt.mk is injective, so equality
of Rt values refines IEEE equality of the square-root floats.

The repository's core.py is not part of the sources; its functions are
external collaborators per the spec (section 6) and are modelled from the
spec's stated contracts, marked `Modelled from the spec:` on each definition.
-/

namespace Stumpy

/-- IEEE-754-style scalar: NaN, plus infinity, minus infinity, or a finite
value represented exactly by a rational number. -/
inductive F where
  | nan : F
  | pinf : F
  | ninf : F
  | fin : ℚ → F
deriving DecidableEq

namespace F

/-- IEEE negation. -/
def neg : F → F
  | nan => nan
  | pinf => ninf
  | ninf => pinf
  | fin q => fin (-q)

/-- IEEE addition: NaN propagates, inf + (-inf) = NaN. -/
def add : F → F → F
  | nan, _ => nan
  | _, nan => nan
  | pinf, ninf => nan
  | ninf, pinf => nan
  | pinf, _ => pinf
  | _, pinf => pinf
  | ninf, _ => ninf
  | _, ninf => ninf
  | fin a, fin b => fin (a + b)

/-- IEEE subtraction. -/
def sub (a b : F) : F := add a (neg b)

/-- IEEE multiplication: NaN propagates, inf * 0 = NaN, sign rules for inf. -/
def mul : F → F → F
  | nan, _ => nan
  | _, nan => nan
  | pinf, pinf => pinf
  | pinf, ninf => ninf
  | ninf, pinf => ninf
  | ninf, ninf => pinf
  | pinf, fin q => if q = 0 then nan else if 0 < q then pinf else ninf
  | fin q, pinf => if q = 0 then nan else if 0 < q then pinf else ninf
  | ninf, fin q => if q = 0 then nan else if 0 < q then ninf else pinf
  | fin q, ninf => if q = 0 then nan else if 0 < q then ninf else pinf
  | fin a, fin b => fin (a * b)

/-- IEEE division: NaN propagates, inf / inf = NaN, finite / 0 = signed inf
(0 / 0 = NaN), finite / inf = 0. -/
def div : F → F → F
  | nan, _ => nan
  | _, nan => nan
  | pinf, pinf => nan
  | pinf, ninf => nan
  | ninf, pinf => nan
  | ninf, ninf => nan
  | pinf, fin q => if 0 ≤ q then pinf else ninf
  | ninf, fin q => if 0 ≤ q then ninf else pinf
  | fin _, pinf => fin 0
  | fin _, ninf => fin 0
  | fin a, fin b =>
      if b = 0 then (if a = 0 then nan else if 0 < a then pinf else ninf)
      else fin (a / b)

/-- IEEE strict less-than: any comparison with NaN is false. -/
def lt : F → F → Bool
  | nan, _ => false
  | _, nan => false
  | ninf, ninf => false
  | ninf, _ => true
  | _, ninf => false
  | pinf, _ => false
  | fin _, pinf => true
  | fin a, fin b => decide (a < b)

/-- IEEE absolute value. -/
def fabs : F → F
  | nan => nan
  | pinf => pinf
  | ninf => pinf
  | fin q => fin |q|

/-- np.isfinite: true exactly on finite values. -/
def isFinite : F → Bool
  | fin _ => true
  | _ => false

instance : Add F := ⟨add⟩
instance : Sub F := ⟨sub⟩
instance : Mul F := ⟨mul⟩
instance : Div F := ⟨div⟩
instance : Neg F := ⟨neg⟩

/-- A value is non-finite when it is NaN or an infinity. -/
def nonFinite (x : F) : Prop := x = nan ∨ x = pinf ∨ x = ninf

instance : DecidablePred nonFinite := fun x => by unfold nonFinite; infer_instance

end F

/-- Exact representation of the IEEE value np.sqrt(x): the field sq holds the
radicand x.  Because the square root is strictly increasing on [0, inf], maps
+inf to +inf, and maps negative radicands and NaN to NaN, comparisons of the
square-root floats are recovered exactly from the radicands by Rt.lt below,
and mk is injective, so equality of Rt values refines float equality. -/
structure Rt where
  sq : F
deriving DecidableEq

/-- The element-wise np.sqrt at the end of _scrimp and _prescrimp. -/
def npSqrt (x : F) : Rt := ⟨x⟩

/-- Normalise a radicand to the non-NaN domain of the square root: negative
radicands and -inf have NaN square roots. -/
def Rt.norm (a : Rt) : F :=
  match a.sq with
  | F.ninf => F.nan
  | F.fin q => if q < 0 then F.nan else F.fin q
  | x => x

/-- IEEE strict less-than on square-root values, computed from the radicands:
sqrt is strictly increasing on [0, inf], so sqrt x < sqrt y iff x < y there,
and comparisons involving a NaN square root are false. -/
def Rt.lt (a b : Rt) : Bool := F.lt a.norm b.norm

/-- Non-strict comparison used to state monotonicity of yielded profiles. -/
def Rt.le (a b : Rt) : Prop := Rt.lt a b = true ∨ a = b

/-- The +inf initial value of profile entries, seen through np.sqrt. -/
def Rt.inf : Rt := ⟨F.pinf⟩

/-- Python sequence-index resolution: indices in [0, len) are used directly,
indices in [-len, 0) wrap around, anything else is an IndexError (none). -/
def pyIdx (len : ℕ) (i : ℤ) : Option ℕ :=
  if 0 ≤ i ∧ i < (len : ℤ) then some i.toNat
  else if -(len : ℤ) ≤ i ∧ i < 0 then some (i + (len : ℤ)).toNat
  else none

/-- Read a rational array at a Python-style (possibly negative) index; an
index that Python would reject reads the default. -/
def pyGet (xs : List ℚ) (i : ℤ) : ℚ :=
  match pyIdx xs.length i with
  | some j => xs.getD j 0
  | none => 0

/-- A profile cell: squared distance and matching index (I = -1 means no
match yet).  The source keeps P and I in two parallel arrays that are always
written together; the model pairs them. -/
abbrev Cell := F × ℤ

/-- A worker-local or running profile table (one row of the source's P, I). -/
abbrev Tbl := List Cell

/-- Write a table cell at a Python-style index; out-of-range writes are
modelled as no-ops (the theorems keep the relevant writes in range). -/
def pySetCell (t : Tbl) (i : ℤ) (c : Cell) : Tbl :=
  match pyIdx t.length i with
  | some j => t.set j c
  | none => t

/-- Read a table cell at a Python-style index. -/
def pyGetCell (t : Tbl) (i : ℤ) : Cell :=
  match pyIdx t.length i with
  | some j => t.getD j (F.pinf, -1)
  | none => (F.pinf, -1)

/-- Fresh profile table: P = +inf, I = -1 (scrimp.py lines 248-249, 323-324). -/
def initTbl (l : ℕ) : Tbl := List.replicate l (F.pinf, -1)

/-- Dot product of two rational vectors (np.dot on equal-length windows). -/
def dotQ (xs ys : List ℚ) : ℚ :=
  (List.zip xs ys).foldl (fun acc p => acc + p.1 * p.2) 0

/-- The length-m window of T starting at i (the slice T[i : i + m]). -/
def window (T : List ℚ) (i m : ℕ) : List ℚ := (T.drop i).take m

/-- Modelled from the spec: core._calculate_squared_distance (an external
collaborator, spec section 4.1 and 6).  Normalised squared distance
2 m (1 - (QT - m mu_i mu_j) / (m sigma_i sigma_j)); the spec requires +inf
(never NaN) when the denominator is degenerate (sigma = 0), and a squared
distance is non-negative, so the absolute value is taken.  The spec's QT
reconstruction formula in section 4.5 inverts exactly this expression. -/
def calcSqDist (m : ℕ) (QT : F) (μi σi μj σj : ℚ) : F :=
  if σi ≤ 0 ∨ σj ≤ 0 then F.pinf
  else F.fabs (F.mul (F.fin (2 * m))
    (F.sub (F.fin 1)
      (F.div (F.sub QT (F.fin (m * μi * μj))) (F.fin (m * σi * σj)))))

/-- The sliding dot product along diagonal k (scrimp.py lines 174-177):
seeded by a direct dot product at i = 0, then updated by the O(1) recurrence
QT(i+1) = QT(i) - T[i] * T[i+k-1] + T[i+m] * T[i+k+m-1]. -/
def QTdiag (T : List ℚ) (m : ℕ) (k : ℤ) : ℕ → ℚ
  | 0 => dotQ (window T 0 m) ((T.drop (k - 1).toNat).take m)
  | i + 1 => QTdiag T m k i
      - pyGet T i * pyGet T (i + k - 1)
      + pyGet T (i + m) * pyGet T (i + k + m - 1)

/-- One inner-loop iteration of _compute_diagonal at row i on diagonal k
(scrimp.py lines 174-189): compute the squared distance, then conditionally
update row i (match index i + k - 1) and row i + k - 1 (match index i), both
guarded by the exclusion-zone condition i < i + k - 1 - excl_zone and by
strict improvement. -/
def diagStep (T μ σ : List ℚ) (m : ℕ) (e k : ℤ) (tbl : Tbl) (i : ℕ) : Tbl :=
  let d := calcSqDist m (F.fin (QTdiag T m k i))
    (pyGet μ i) (pyGet σ i) (pyGet μ (i + k - 1)) (pyGet σ (i + k - 1))
  let tbl1 := if (i : ℤ) < i + k - 1 - e ∧ F.lt d (pyGetCell tbl i).1 = true
    then pySetCell tbl i (d, i + k - 1) else tbl
  if (i : ℤ) < i + k - 1 - e ∧ F.lt d (pyGetCell tbl1 (i + k - 1)).1 = true
    then pySetCell tbl1 (i + k - 1) (d, i) else tbl1

/-- Walk one whole diagonal k: rows i = 0, ..., n - m + 2 - k - 1. -/
def walkDiag (T μ σ : List ℚ) (m : ℕ) (e k : ℤ) (tbl : Tbl) : Tbl :=
  (List.range ((T.length : ℤ) - m + 2 - k).toNat).foldl
    (fun t i => diagStep T μ σ m e k t i) tbl

/-- _compute_diagonal (scrimp.py lines 124-189): process the diagonals
orders[a], ..., orders[b - 1] in order, updating the worker-local table. -/
def computeDiagonal (T μ σ : List ℚ) (m : ℕ) (e : ℤ) (orders : List ℤ)
    (a b : ℕ) (tbl : Tbl) : Tbl :=
  ((orders.drop a).take (b - a)).foldl
    (fun t k => walkDiag T μ σ m e k t) tbl

/-- One step of the reduction (scrimp.py lines 268-272): slot 0 keeps its
cell unless the other worker's distance is strictly smaller
(P[0, i] > P[t, i]), in which case both the distance and the index are
copied. -/
def mergeCell (a b : Cell) : Cell := if F.lt b.1 a.1 = true then b else a

/-- Element-wise reduction of a worker table into slot 0. -/
def mergeTbl (A B : Tbl) : Tbl := List.zipWith mergeCell A B

/-- _scrimp (scrimp.py lines 192-274): one worker table per range, each
initialized to (+inf, -1), one _compute_diagonal pass per worker over its
[start, stop) order range, reduction of all tables into slot 0, and the
result reported as (np.sqrt(P[0]), I[0]).  (The source's percentage
parameter is unused in the body and omitted; the thread count is the number
of rows of the ranges array.) -/
def scrimpPar (T μ σ : List ℚ) (m : ℕ) (orders : List ℤ)
    (ranges : List (ℕ × ℕ)) (e : ℤ) : List (Rt × ℤ) :=
  let l := T.length - m + 1
  let tbls := ranges.map (fun r => computeDiagonal T μ σ m e orders r.1 r.2 (initTbl l))
  let reduced := match tbls with
    | [] => initTbl l
    | t0 :: rest => rest.foldl mergeTbl t0
  reduced.map (fun c => (npSqrt c.1, c.2))

/-- A single worker processing the whole order range [a, b) sequentially,
reported through the same (np.sqrt(P), I) output path: the sequential
reference point of the reduction-correctness property. -/
def scrimpSeq (T μ σ : List ℚ) (m : ℕ) (orders : List ℤ) (a b : ℕ)
    (e : ℤ) : List (Rt × ℤ) :=
  let l := T.length - m + 1
  (computeDiagonal T μ σ m e orders a b (initTbl l)).map (fun c => (npSqrt c.1, c.2))

/-- The expected number of distances on diagonal k (there are n - m + 2 - k
index pairs on it). -/
def diagCount (m n k : ℤ) : ℤ := n - m + 2 - k

/-- One step of the break-on-threshold walk of _get_max_order_idx
(scrimp.py lines 51-58): accumulate the diagonal's count; once the running
fraction of maxN strictly exceeds the percentage, record (idx + 1, acc) and
ignore the rest (the source breaks out of the loop). -/
def maxOrderStep (m n : ℤ) (orders : List ℤ) (pct : ℚ) (maxN : ℤ)
    (st : Option (ℕ × ℤ) × ℤ) (idx : ℕ) : Option (ℕ × ℤ) × ℤ :=
  match st.1 with
  | some _ => st
  | none =>
      let acc := st.2 + diagCount m n (orders.getD idx 0)
      if ((acc : ℚ) / (maxN : ℚ)) > pct then (some (idx + 1, acc), acc)
      else (none, acc)

/-- _get_max_order_idx (scrimp.py lines 15-60).  The total maxN is the sum of
the expected counts over the whole orders array (the loop at lines 47-49
ranges over range(orders.shape[0])).  The walk then runs over the indices
[start, orders.length); if the fraction never exceeds the percentage the
function returns (orders.length, accumulated total), matching the source's
fall-through where order_idx holds the final loop index. -/
def getMaxOrderIdx (m n : ℤ) (orders : List ℤ) (start : ℕ) (pct : ℚ) :
    ℕ × ℤ :=
  let maxN : ℤ := (orders.map (fun k => diagCount m n k)).sum
  match (List.range' start (orders.length - start)).foldl
      (maxOrderStep m n orders pct maxN) (none, 0) with
  | (some r, _) => r
  | (none, acc) => (orders.length, acc)

/-- Follows the spec's words (section 4.2), for comparison with the source's
getMaxOrderIdx: the spec states the total expected distance count over "all
remaining diagonals" is the sum over orders[start:], whereas the source sums
over the whole array. -/
def getMaxOrderIdxSpec (m n : ℤ) (orders : List ℤ) (start : ℕ) (pct : ℚ) :
    ℕ × ℤ :=
  let maxN : ℤ := ((orders.drop start).map (fun k => diagCount m n k)).sum
  match (List.range' start (orders.length - start)).foldl
      (maxOrderStep m n orders pct maxN) (none, 0) with
  | (some r, _) => r
  | (none, acc) => (orders.length, acc)

/-- Intermediate state of the range-splitting loop of _get_orders_ranges:
the ranges array being filled, the next row to fill, the start index of the
current sub-range, and the count accumulated in the current sub-range. -/
abbrev SplitState := List (ℕ × ℕ) × ℕ × ℕ × ℤ

/-- One step of the splitting loop (scrimp.py lines 105-116): accumulate the
diagonal's count; when the running count strictly exceeds the per-worker
share, close the current sub-range at idx + 1 (capped at maxIdx), advance to
the next row and reset the accumulator. -/
def splitStep (m n : ℤ) (orders : List ℤ) (per : ℚ) (maxIdx : ℕ)
    (st : SplitState) (idx : ℕ) : SplitState :=
  let acc := st.2.2.2 + diagCount m n (orders.getD idx 0)
  if (acc : ℚ) > per then
    (st.1.set st.2.1 (st.2.2.1, min (idx + 1) maxIdx), st.2.1 + 1, idx + 1, 0)
  else (st.1, st.2.1, st.2.2.1, acc)

/-- _get_orders_ranges (scrimp.py lines 63-121): compute the stop index and
total count via _get_max_order_idx, fill an n_split-row array of
[start, stop) pairs (initialized to zeros) by cutting a new sub-range
whenever the running count exceeds total / n_split, and assign the remainder
to the row after the last cut. -/
def getOrdersRanges (nSplit : ℕ) (m n : ℤ) (orders : List ℤ) (start : ℕ)
    (pct : ℚ) : List (ℕ × ℕ) :=
  let r := getMaxOrderIdx m n orders start pct
  let per : ℚ := (r.2 : ℚ) / (nSplit : ℚ)
  let st := (List.range' start (r.1 - start)).foldl
    (splitStep m n orders per r.1) (List.replicate nSplit (0, 0), 0, start, 0)
  st.1.set st.2.1 (st.2.2.1, r.1)

/-- Modelled from the spec: core.mass (the external whole-series distance
primitive, spec sections 4.5 and 6), composed with the source's np.square
(scrimp.py line 330): the squared distance from the query window at i to
every window of T, built from the direct dot product and the same normalised
squared-distance contract as calcSqDist. -/
def massSq (T μ σ : List ℚ) (m i : ℕ) : List F :=
  (List.range (T.length - m + 1)).map (fun j =>
    calcSqDist m (F.fin (dotQ (window T i m) (window T j m)))
      (μ.getD i 0) (σ.getD i 0) (μ.getD j 0) (σ.getD j 0))

/-- Mask the exclusion zone around i to +inf (scrimp.py lines 331-333):
zone_start = max(0, i - e), zone_stop = min(l, i + e), and the slice
D[zone_start : zone_stop + 1] is set to +inf. -/
def maskZone (D : List F) (l : ℕ) (i : ℕ) (e : ℤ) : List F :=
  let zs : ℤ := max 0 ((i : ℤ) - e)
  let zt : ℤ := min (l : ℤ) ((i : ℤ) + e)
  D.mapIdx (fun j d => if zs ≤ (j : ℤ) ∧ (j : ℤ) ≤ zt then F.pinf else d)

/-- np.argmin: index of the least element, first occurrence on ties, 0 on an
all-+inf or empty vector (comparisons use the IEEE strict less-than). -/
def argminF (xs : List F) : ℕ :=
  (xs.foldl (fun (st : ℕ × ℕ × F) x =>
    if F.lt x st.2.2 = true then (st.2.1, st.2.1 + 1, x)
    else (st.1, st.2.1 + 1, st.2.2)) (0, 0, F.pinf)).1

/-- The seed dot product of the PreSCRIMP extension (scrimp.py line 348),
reconstructed algebraically from the squared distance at the best pair:
QT = (m - P[i] / 2) * (sigma_i * sigma_j) + m * mu_i * mu_j, in IEEE
arithmetic (P[i] may be +inf when no match was found). -/
def seedQT (μ σ : List ℚ) (m : ℕ) (Pi : F) (i j : ℤ) : F :=
  (F.fin m - Pi / F.fin 2) * F.fin (pyGet σ i * pyGet σ j)
    + F.fin (m * pyGet μ i * pyGet μ j)

/-- One forward extension step (scrimp.py lines 350-360) at offset k: update
the dot product by the O(1) recurrence, compute the squared distance, and
update rows i + k and j + k by strict improvement (the source has no
exclusion-zone test here). -/
def extStepFwd (T μ σ : List ℚ) (m : ℕ) (i j : ℤ)
    (st : F × Tbl) (k : ℕ) : F × Tbl :=
  let QT := st.1 - F.fin (pyGet T (i + k - 1) * pyGet T (j + k - 1))
    + F.fin (pyGet T (i + k + m - 1) * pyGet T (j + k + m - 1))
  let d := calcSqDist m QT (pyGet μ (i + k)) (pyGet σ (i + k))
    (pyGet μ (j + k)) (pyGet σ (j + k))
  let t1 := if F.lt d (pyGetCell st.2 (i + k)).1 = true
    then pySetCell st.2 (i + k) (d, j + k) else st.2
  let t2 := if F.lt d (pyGetCell t1 (j + k)).1 = true
    then pySetCell t1 (j + k) (d, i + k) else t1
  (QT, t2)

/-- One backward extension step (scrimp.py lines 362-372) at offset k. -/
def extStepBwd (T μ σ : List ℚ) (m : ℕ) (i j : ℤ)
    (st : F × Tbl) (k : ℕ) : F × Tbl :=
  let QT := st.1 - F.fin (pyGet T (i - k + m) * pyGet T (j - k + m))
    + F.fin (pyGet T (i - k) * pyGet T (j - k))
  let d := calcSqDist m QT (pyGet μ (i - k)) (pyGet σ (i - k))
    (pyGet μ (j - k)) (pyGet σ (j - k))
  let t1 := if F.lt d (pyGetCell st.2 (i - k)).1 = true
    then pySetCell st.2 (i - k) (d, j - k) else st.2
  let t2 := if F.lt d (pyGetCell t1 (j - k)).1 = true
    then pySetCell t1 (j - k) (d, i - k) else t1
  (QT, t2)

/-- The bidirectional extension phase of one PreSCRIMP sample (scrimp.py
lines 346-372): read the best pair (i, j = I[i]) and its squared distance
P[i] from the table, seed the dot product algebraically, walk the offsets
1, ..., min(s, l - max(i, j)) - 1 forward, restore the seed, and walk the
offsets 1, ..., min(s, i + 1, j + 1) - 1 backward. -/
def prescrimpExtend (T μ σ : List ℚ) (m s : ℕ) (st : Tbl) (i : ℕ) : Tbl :=
  let l := T.length - m + 1
  let j : ℤ := (pyGetCell st i).2
  let QT0 := seedQT μ σ m (pyGetCell st i).1 i j
  let fwd := (List.range' 1 ((min (s : ℤ) ((l : ℤ) - max (i : ℤ) j)).toNat - 1)).foldl
    (extStepFwd T μ σ m i j) (QT0, st)
  ((List.range' 1 ((min (s : ℤ) (min ((i : ℤ) + 1) (j + 1))).toNat - 1)).foldl
    (extStepBwd T μ σ m i j) (QT0, fwd.2)).2

/-- One full PreSCRIMP sample (scrimp.py lines 326-372): the whole-series
scan for row i with the exclusion zone masked to +inf, the argmin row
update (with I[i] reset to -1 when the whole masked row is +inf), the scan
that improves every column j with the freshly computed distances, and the
bidirectional extension. -/
def prescrimpSample (T μ σ : List ℚ) (m s : ℕ) (e : ℤ) (st : Tbl) (i : ℕ) :
    Tbl :=
  let l := T.length - m + 1
  let D := maskZone (massSq T μ σ m i) l i e
  let ii := argminF D
  let Pi := D.getD ii F.pinf
  let st1 := pySetCell st i (Pi, (ii : ℤ))
  let st2 := if Pi = F.pinf then pySetCell st1 i (Pi, -1) else st1
  let st3 := (List.range l).foldl (fun t j =>
    if F.lt (D.getD j F.pinf) (pyGetCell t j).1 = true
    then pySetCell t j (D.getD j F.pinf, (i : ℤ)) else t) st2
  prescrimpExtend T μ σ m s st3 i

/-- _prescrimp (scrimp.py lines 277-374) with the random permutation of the
stride-sampled start offsets supplied as the samples parameter: fold the
per-sample update over the samples and report (np.sqrt(P), I).  The
exclusion zone is ceil(m / 4) (line 318). -/
def prescrimpRun (T μ σ : List ℚ) (m s : ℕ) (samples : List ℕ) :
    List (Rt × ℤ) :=
  let l := T.length - m + 1
  let e : ℤ := ⌈(m : ℚ) / 4⌉
  ((samples.foldl (prescrimpSample T μ σ m s e) (initTbl l)).map
    (fun c => (npSqrt c.1, c.2)))

/-- Input normalisation of scrimp (scrimp.py lines 420-437): infinities are
first replaced by NaN and then every NaN is replaced by 0, so every
non-finite input value computes as 0 (the sliding statistics consume the
intermediate series; they are parameters of the model, see scrimpRun). -/
def normT (T : List F) : List ℚ :=
  T.map (fun x => match x with | F.fin q => q | _ => 0)

/-- Merge a round's (P, I) result into the running profile (scrimp.py lines
445-448 and 463-466): entry i is overwritten exactly when out[i, 0] > P[i],
i.e. by element-wise minimum, copying the index together with the value. -/
def mergeOut (out PI : List (Rt × ℤ)) : List (Rt × ℤ) :=
  List.zipWith (fun o p => if Rt.lt p.1 o.1 = true then p else o) out PI

/-- The rounds loop of scrimp (scrimp.py lines 456-468): each round
partitions the remaining diagonals, runs the parallel walk and reduction,
advances start to the largest stop index, merges into the running profile,
and yields; the returned list holds the value of the running profile at
each yield point. -/
def scrimpGo (T μ σ : List ℚ) (m nThreads : ℕ) (orders : List ℤ) (e : ℤ)
    (pct : ℚ) : ℕ → List (Rt × ℤ) → ℕ → List (List (Rt × ℤ))
  | 0, _, _ => []
  | r + 1, out, start =>
      let ranges := getOrdersRanges nThreads m (T.length : ℤ) orders start pct
      let PI := scrimpPar T μ σ m orders ranges e
      let out1 := mergeOut out PI
      out1 :: scrimpGo T μ σ m nThreads orders e pct r out1
        ((ranges.map Prod.snd).foldl max 0)

/-- scrimp (scrimp.py lines 377-468).  The external collaborators are
parameters of the model: mu and sigma stand for core.compute_mean_std(T, m)
(spec section 6), orders for the random permutation of the diagonal offsets
(line 450), samples for PreSCRIMP's random permutation of the stride
samples (line 326), and nThreads for config.NUMBA_NUM_THREADS.  The
percentage is clamped to [0, 1] and the number of rounds is
ceil(1 / percentage) (for percentage = 0 the model yields no rounds; the
source would raise there).  The result is the list of the running profile's
values at the successive yield points. -/
def scrimpRun (T0 : List F) (μ σ : List ℚ) (m nThreads : ℕ) (pct : ℚ)
    (pre : Bool) (s : ℕ) (orders : List ℤ) (samples : List ℕ) :
    List (List (Rt × ℤ)) :=
  let T := normT T0
  let l := T.length - m + 1
  let e : ℤ := ⌈(m : ℚ) / 4⌉
  let out0 : List (Rt × ℤ) := List.replicate l (Rt.inf, -1)
  let out1 := if pre then mergeOut out0 (prescrimpRun T μ σ m s samples)
    else out0
  let p := max (min pct 1) 0
  scrimpGo T μ σ m nThreads orders e p (⌈1 / p⌉).toNat out1 0

/-- What a consumer holding the round-r snapshot sees after round t has run:
the source yields the same array object out every round (scrimp.py line 468
yields out itself, with no copy, and lines 463-466 mutate it in place), so
every snapshot aliases the single running profile and shows the latest
round's contents. -/
def scrimpObserved (T0 : List F) (μ σ : List ℚ) (m nThreads : ℕ) (pct : ℚ)
    (pre : Bool) (s : ℕ) (orders : List ℤ) (samples : List ℕ)
    (r t : ℕ) : List (Rt × ℤ) :=
  (scrimpRun T0 μ σ m nThreads pct pre s orders samples).getD (max r t) []

/-- np.isfinite count over a list. -/
def countFinite (xs : List F) : ℕ := (xs.filter F.isFinite).length

/-- The Python slice xs[:k] for an arbitrary integer k: clamped at the
length, wrapping when negative. -/
def pySliceTo (xs : List F) (k : ℤ) : List F :=
  if (xs.length : ℤ) ≤ k then xs
  else if 0 ≤ k then xs.take k.toNat
  else if -(xs.length : ℤ) ≤ k then xs.take (k + (xs.length : ℤ)).toNat
  else []

/-- Read a float list at a Python-style index; none models an IndexError. -/
def pyGetF (xs : List F) (i : ℤ) : Option F :=
  (pyIdx xs.length i).map (fun j => xs.getD j F.nan)

/-- _select_P_ABBA_value without a custom selector (mpdist.py lines
121-129): take P_ABBA[k]; if it is not finite, walk left to
k' = max(0, count of finite values in P_ABBA[:k] - 1) and take P_ABBA[k'].
An index Python would reject is an IndexError (none). -/
def selectPABBA (P : List F) (k : ℤ) : Option F :=
  match pyGetF P k with
  | none => none
  | some v =>
      if F.isFinite v = true then some v
      else pyGetF P (max 0 ((countFinite (pySliceTo P k) : ℤ) - 1))

/-- Ascending key order used by np.sort on floats: -inf, then finite values,
then +inf, with NaN sorted to the end. -/
def sortKeyLe (a b : F) : Bool :=
  match a, b with
  | F.ninf, _ => true
  | _, F.ninf => false
  | F.fin x, F.fin y => decide (x ≤ y)
  | F.fin _, _ => true
  | _, F.fin _ => false
  | F.pinf, _ => true
  | _, F.pinf => false
  | F.nan, F.nan => true

/-- Insert into a sorted list (ascending, stable). -/
def insertF (x : F) : List F → List F
  | [] => [x]
  | y :: ys => if sortKeyLe x y = true then x :: y :: ys else y :: insertF x ys

/-- P_ABBA.sort() (mpdist.py line 214), modelled by insertion sort with the
numpy float key order. -/
def sortF (xs : List F) : List F := xs.foldr insertF []

/-- _mpdist (mpdist.py lines 132-225) with the concatenated AB/BA join
vector P_ABBA supplied as a parameter (the join engine is an external
collaborator, spec section 6), and no custom selector.  The vector is
sorted; if k is supplied it is used as given (int(k), no clamping),
otherwise the percentage is clamped to [0, 1] and
k = min(ceil(percentage * (n_A + n_B)), length - 1) where
length = (n_A - m + 1) + (n_B - m + 1). -/
def mpdistModel (nA nB m : ℕ) (pct : ℚ) (kArg : Option ℤ) (PABBA : List F) :
    Option F :=
  let len : ℤ := ((nA : ℤ) - m + 1) + ((nB : ℤ) - m + 1)
  let sorted := sortF PABBA
  let k : ℤ := match kArg with
    | some k0 => k0
    | none =>
        let p := max (min pct 1) 0
        min ⌈p * ((nA : ℚ) + (nB : ℚ))⌉ (len - 1)
  selectPABBA sorted k

/-- T-array indices read by one inner-loop iteration of _compute_diagonal
(scrimp.py lines 174-177): the two m-term windows of the seeding dot
product at i = 0, or the four scalars of the O(1) recurrence at i >= 1. -/
def diagTReads (m : ℕ) (k : ℤ) (i : ℕ) : List ℤ :=
  if i = 0 then
    ((List.range m).map (fun t : ℕ => (i : ℤ) + (t : ℤ)))
      ++ ((List.range m).map (fun t : ℕ => (i : ℤ) + k - 1 + (t : ℤ)))
  else [(i : ℤ) - 1, (i : ℤ) + k - 2, (i : ℤ) + m - 1, (i : ℤ) + k + m - 2]

/-- mu/sigma indices read by one inner-loop iteration of _compute_diagonal
(scrimp.py lines 179-181). -/
def diagStatReads (k : ℤ) (i : ℕ) : List ℤ := [(i : ℤ), (i : ℤ) + k - 1]

/-- Profile-table rows written by one inner-loop iteration of
_compute_diagonal (scrimp.py lines 183-189). -/
def diagWrites (k : ℤ) (i : ℕ) : List ℤ := [(i : ℤ), (i : ℤ) + k - 1]

/-- The self-match exclusion invariant: every recorded match index is either
-1 (no match) or lies strictly outside the exclusion zone of its row. -/
def exclInv {α : Type} (e : ℤ) (t : List (α × ℤ)) : Prop :=
  ∀ (p : ℕ) (c : α × ℤ), t[p]? = some c → c.2 ≠ -1 → e < |c.2 - (p : ℤ)|

/-- The ranges list is a contiguous ascending partition of [a, b): each row
starts where the previous one stopped. -/
def chainFrom : List (ℕ × ℕ) → ℕ → ℕ → Prop
  | [], a, b => a = b
  | r :: rs, a, b => r.1 = a ∧ a ≤ r.2 ∧ chainFrom rs r.2 b

/-- Cumulative expected distance count of the diagonals orders[start], ...,
orders[j - 1]. -/
def cumCount (m n : ℤ) (orders : List ℤ) (start j : ℕ) : ℤ :=
  (((orders.drop start).take (j - start)).map (fun k => diagCount m n k)).sum

/-- Declarative form of the stop index of the percentage walk: one past the
first index at or after start where the cumulative fraction of the whole
array's total strictly exceeds the percentage, or orders.length if the
fraction never does. -/
def declStop (m n : ℤ) (orders : List ℤ) (start : ℕ) (pct : ℚ) : ℕ :=
  let total : ℤ := (orders.map (fun k => diagCount m n k)).sum
  match (List.range' start (orders.length - start)).find?
      (fun idx => decide (((cumCount m n orders start (idx + 1) : ℚ) / (total : ℚ)) > pct)) with
  | some idx => idx + 1
  | none => orders.length

/-- Expected distance count accumulated by the worker owning the order-index
range r. -/
def rangeCount (m n : ℤ) (orders : List ℤ) (r : ℕ × ℕ) : ℤ :=
  (((orders.drop r.1).take (r.2 - r.1)).map (fun k => diagCount m n k)).sum

/-- One forward extension step as the spec words it (section 4.5): the same
recurrence and distance, but with each update guarded by the DiagonalWalker
exclusion-zone rule (row strictly below column minus the zone width) as well
as strict improvement. -/
def extStepFwdSpec (T μ σ : List ℚ) (m : ℕ) (e i j : ℤ)
    (st : F × Tbl) (k : ℕ) : F × Tbl :=
  let QT := st.1 - F.fin (pyGet T (i + k - 1) * pyGet T (j + k - 1))
    + F.fin (pyGet T (i + k + m - 1) * pyGet T (j + k + m - 1))
  let d := calcSqDist m QT (pyGet μ (i + k)) (pyGet σ (i + k))
    (pyGet μ (j + k)) (pyGet σ (j + k))
  let t1 := if min (i + k) (j + k) < max (i + k) (j + k) - e
      ∧ F.lt d (pyGetCell st.2 (i + k)).1 = true
    then pySetCell st.2 (i + k) (d, j + k) else st.2
  let t2 := if min (i + k) (j + k) < max (i + k) (j + k) - e
      ∧ F.lt d (pyGetCell t1 (j + k)).1 = true
    then pySetCell t1 (j + k) (d, i + k) else t1
  (QT, t2)

/-- One backward extension step as the spec words it (section 4.5). -/
def extStepBwdSpec (T μ σ : List ℚ) (m : ℕ) (e i j : ℤ)
    (st : F × Tbl) (k : ℕ) : F × Tbl :=
  let QT := st.1 - F.fin (pyGet T (i - k + m) * pyGet T (j - k + m))
    + F.fin (pyGet T (i - k) * pyGet T (j - k))
  let d := calcSqDist m QT (pyGet μ (i - k)) (pyGet σ (i - k))
    (pyGet μ (j - k)) (pyGet σ (j - k))
  let t1 := if min (i - k) (j - k) < max (i - k) (j - k) - e
      ∧ F.lt d (pyGetCell st.2 (i - k)).1 = true
    then pySetCell st.2 (i - k) (d, j - k) else st.2
  let t2 := if min (i - k) (j - k) < max (i - k) (j - k) - e
      ∧ F.lt d (pyGetCell t1 (j - k)).1 = true
    then pySetCell t1 (j - k) (d, i - k) else t1
  (QT, t2)

/-- Follows the spec's words (section 4.5), for comparison with the source's
prescrimpExtend: starting from the discovered best pair (i, j), seed the dot
product by QT = (m - P[i] / 2) * sigma_i * sigma_j + m * mu_i * mu_j, walk
exactly min(s, l - max(i, j)) - 1 steps forward and exactly
min(s, i + 1, j + 1) - 1 steps backward, updating row and column bests at
each step under the DiagonalWalker strict-improvement and exclusion-zone
rules. -/
def prescrimpExtendSpec (T μ σ : List ℚ) (m s : ℕ) (e : ℤ) (st : Tbl)
    (i : ℕ) : Tbl :=
  let l := T.length - m + 1
  let j : ℤ := (pyGetCell st i).2
  let QT0 := seedQT μ σ m (pyGetCell st i).1 i j
  let nFwd := (min (s : ℤ) ((l : ℤ) - max (i : ℤ) j)).toNat - 1
  let nBwd := (min (s : ℤ) (min ((i : ℤ) + 1) (j + 1))).toNat - 1
  let fwd := (List.range' 1 nFwd).foldl (extStepFwdSpec T μ σ m e i j) (QT0, st)
  ((List.range' 1 nBwd).foldl (extStepBwdSpec T μ σ m e i j) (QT0, fwd.2)).2

/-- Stored distances are never NaN: a table cell holds +inf (the initial
value) or a value that won a strict IEEE comparison. -/
def tblOK (t : Tbl) : Prop := ∀ c ∈ t, c.1 ≠ F.nan

/-- The order indices covered by a list of [start, stop) rows, in row
order. -/
def flattenRanges (rs : List (ℕ × ℕ)) : List ℕ :=
  (rs.map (fun r => List.range' r.1 (r.2 - r.1))).flatten

/-- Loop invariant of the range-splitting fold of _get_orders_ranges, at
current index cur: the rows written so far (rows0) are chained from start
to the open sub-range's start, each was closed by a strict threshold
crossing and overshoots the per-worker share by at most its last diagonal's
count, the open accumulator matches the open sub-range and has not crossed
the share, and the share bounds the written rows' count from below (which
keeps the next row index in bounds). -/
def splitInv (nSplit : ℕ) (m n : ℤ) (orders : List ℤ) (start : ℕ) (per : ℚ)
    (cur : ℕ) (st : SplitState) : Prop :=
  ∃ rows0 : List (ℕ × ℕ),
    st.1 = rows0 ++ List.replicate (nSplit - rows0.length) (0, 0)
    ∧ st.2.1 = rows0.length
    ∧ start ≤ st.2.2.1
    ∧ st.2.2.1 ≤ cur
    ∧ flattenRanges rows0 = List.range' start (st.2.2.1 - start)
    ∧ st.2.2.2 = cumCount m n orders st.2.2.1 cur
    ∧ ((st.2.2.2 : ℚ) ≤ per)
    ∧ (∀ r ∈ rows0, r.1 < r.2
        ∧ per < (rangeCount m n orders r : ℚ)
        ∧ (rangeCount m n orders r : ℚ)
          ≤ per + (diagCount m n (orders.getD (r.2 - 1) 0) : ℚ))
    ∧ (per * (rows0.length : ℚ) < (cumCount m n orders start st.2.2.1 : ℚ)
        ∨ rows0.length = 0)

/-! Basic facts about the IEEE comparison. -/

theorem F.lt_nan_left (x : F) : F.lt F.nan x = false := by
  cases x <;> rfl

theorem F.lt_nan_right (x : F) : F.lt x F.nan = false := by
  cases x <;> rfl

theorem F.lt_pinf_left (x : F) : F.lt F.pinf x = false := by
  cases x <;> rfl

theorem F.ne_nan_of_lt {d x : F} (h : F.lt d x = true) : d ≠ F.nan := by
  rintro rfl; rw [F.lt_nan_left] at h; exact absurd h Bool.false_ne_true

theorem F.ne_pinf_of_lt {d x : F} (h : F.lt d x = true) : d ≠ F.pinf := by
  rintro rfl; rw [F.lt_pinf_left] at h; exact absurd h Bool.false_ne_true

theorem F.rhs_ne_nan_of_lt {d x : F} (h : F.lt d x = true) : x ≠ F.nan := by
  rintro rfl; rw [F.lt_nan_right] at h; exact absurd h Bool.false_ne_true

theorem F.lt_trans {a b c : F} (hab : F.lt a b = true) (hbc : F.lt b c = true) :
    F.lt a c = true := by
  cases a <;> cases b <;> cases c <;> simp_all [F.lt] <;> linarith

theorem F.nlt_trans {d b a : F} (hb : b ≠ F.nan) (hd : d ≠ F.nan)
    (h1 : F.lt d b = false) (h2 : F.lt b a = false) : F.lt d a = false := by
  cases a <;> cases b <;> cases d <;> simp_all [F.lt] <;> linarith

/-! Cell-level facts about the reduction merge and the conditional update. -/

theorem mergeCell_pinf (a : Cell) (j : ℤ) : mergeCell a (F.pinf, j) = a := by
  simp [mergeCell, F.lt_pinf_left]

theorem mergeCell_fst_ne_nan {a b : Cell} (ha : a.1 ≠ F.nan)
    (hb : b.1 ≠ F.nan) : (mergeCell a b).1 ≠ F.nan := by
  unfold mergeCell; split <;> assumption

/-- The key algebraic fact behind reduction correctness: merging with slot 0
commutes with a conditional strict-improvement update, provided neither
stored distance is NaN (stored distances are +inf or finite). -/
theorem mergeCell_condUpd (g : Prop) [Decidable g] (d : F) (jv : ℤ)
    {a b : Cell} (hb : b.1 ≠ F.nan) :
    mergeCell a (if g ∧ F.lt d b.1 = true then (d, jv) else b)
      = (if g ∧ F.lt d (mergeCell a b).1 = true then (d, jv)
        else mergeCell a b) := by
  by_cases hg : g
  · by_cases hba : F.lt b.1 a.1 = true
    · have hm : mergeCell a b = b := by simp [mergeCell, hba]
      rw [hm]
      by_cases hdb : F.lt d b.1 = true
      · have hda : F.lt d a.1 = true := F.lt_trans hdb hba
        simp [mergeCell, hg, hdb, hda]
      · simp [hg, hdb, hm]
    · have hm : mergeCell a b = a := by simp [mergeCell, hba]
      rw [hm]
      by_cases hdb : F.lt d b.1 = true
      · by_cases hda : F.lt d a.1 = true
        · simp [mergeCell, hg, hdb, hda]
        · simp [mergeCell, hg, hdb, hda]
      · have hda : F.lt d a.1 = false := by
          by_cases hdn : d = F.nan
          · subst hdn; exact F.lt_nan_left _
          · exact F.nlt_trans hb hdn (by simpa using hdb)
              (by simpa using hba)
        simp [hg, hdb, hda, hm]
  · simp [hg]

/-! Indexing helpers. -/

theorem pyIdx_coe (len p : ℕ) :
    pyIdx len p = if p < len then some p else none := by
  unfold pyIdx
  by_cases h : p < len
  · rw [if_pos ⟨Int.natCast_nonneg p, by exact_mod_cast h⟩, if_pos h,
      Int.toNat_natCast]
  · rw [if_neg (by omega), if_neg (by omega), if_neg h]

theorem pyIdx_nonneg (len : ℕ) (x : ℤ) (hx : 0 ≤ x) :
    pyIdx len x = if x < (len : ℤ) then some x.toNat else none := by
  unfold pyIdx
  by_cases h : x < (len : ℤ)
  · rw [if_pos ⟨hx, h⟩, if_pos h]
  · rw [if_neg (by omega), if_neg (by omega), if_neg h]

theorem pySetCell_length (t : Tbl) (i : ℤ) (c : Cell) :
    (pySetCell t i c).length = t.length := by
  unfold pySetCell
  cases pyIdx t.length i <;> simp

theorem pyGetCell_coe (t : Tbl) (p : ℕ) (hp : p < t.length) :
    pyGetCell t p = t.getD p (F.pinf, -1) := by
  unfold pyGetCell
  rw [pyIdx_coe, if_pos hp]

theorem pyGetCell_coe_ge (t : Tbl) (p : ℕ) (hp : t.length ≤ p) :
    pyGetCell t p = (F.pinf, -1) := by
  unfold pyGetCell
  rw [pyIdx_coe, if_neg (by omega)]

theorem getD_pySetCell (t : Tbl) (i : ℤ) (c : Cell) (p : ℕ) (d : Cell) :
    (pySetCell t i c).getD p d
      = if pyIdx t.length i = some p then c else t.getD p d := by
  unfold pySetCell
  rcases h : pyIdx t.length i with _ | j
  · simp
  · have hj : j < t.length := by
      unfold pyIdx at h
      split_ifs at h with h1 h2 <;> simp_all <;> omega
    simp only [List.getD_eq_getElem?_getD, List.getElem?_set]
    by_cases hpj : j = p
    · subst hpj; simp [hj]
    · rw [if_neg hpj, if_neg (by simp [hpj])]

theorem mergeTbl_length (A B : Tbl) :
    (mergeTbl A B).length = min A.length B.length := by
  simp [mergeTbl]

theorem getD_mergeTbl (A B : Tbl) (hlen : A.length = B.length) (p : ℕ) :
    (mergeTbl A B).getD p (F.pinf, -1)
      = mergeCell (A.getD p (F.pinf, -1)) (B.getD p (F.pinf, -1)) := by
  by_cases hp : p < A.length
  · simp only [List.getD_eq_getElem?_getD, mergeTbl]
    rw [List.getElem?_eq_getElem (l := List.zipWith mergeCell A B)
        (by rw [List.length_zipWith]; omega),
      List.getElem_zipWith,
      List.getElem?_eq_getElem (l := A) hp,
      List.getElem?_eq_getElem (l := B) (by omega)]
    rfl
  · have h1 : A[p]? = none := by rw [List.getElem?_eq_none]; omega
    have h2 : B[p]? = none := by rw [List.getElem?_eq_none]; omega
    have h3 : (mergeTbl A B)[p]? = none := by
      rw [List.getElem?_eq_none]; rw [mergeTbl_length]; omega
    simp [List.getD_eq_getElem?_getD, h1, h2, h3, mergeCell, F.lt_pinf_left]

theorem pyIdx_lt {len : ℕ} {q : ℤ} {j : ℕ} (h : pyIdx len q = some j) :
    j < len := by
  unfold pyIdx at h
  split_ifs at h with h1 h2 <;> simp_all <;> omega

theorem pyGetCell_of_pyIdx {t : Tbl} {q : ℤ} {j : ℕ}
    (h : pyIdx t.length q = some j) :
    pyGetCell t q = t.getD j (F.pinf, -1) := by
  unfold pyGetCell
  rw [h]

theorem pySetCell_of_pyIdx_none {t : Tbl} {q : ℤ}
    (h : pyIdx t.length q = none) (c : Cell) : pySetCell t q c = t := by
  unfold pySetCell
  rw [h]

theorem getD_mem {t : Tbl} {p : ℕ} (hp : p < t.length) (d : Cell) :
    t.getD p d ∈ t := by
  rw [List.getD_eq_getElem?_getD, List.getElem?_eq_getElem hp]
  exact List.getElem_mem hp

theorem tblOK_pySetCell {t : Tbl} (hOK : tblOK t) {c : Cell}
    (hc : c.1 ≠ F.nan) (q : ℤ) : tblOK (pySetCell t q c) := by
  unfold pySetCell
  rcases h : pyIdx t.length q with _ | j
  · exact hOK
  · intro x hx
    rcases List.mem_or_eq_of_mem_set hx with hmem | rfl
    · exact hOK x hmem
    · exact hc

/-- A conditional strict-improvement write never stores a NaN distance. -/
theorem tblOK_condWrite {t : Tbl} (hOK : tblOK t) (g : Prop) [Decidable g]
    {d : F} (q jv : ℤ) (cur : F) :
    tblOK (if g ∧ F.lt d cur = true then pySetCell t q (d, jv) else t) := by
  split_ifs with hc
  · exact tblOK_pySetCell hOK (F.ne_nan_of_lt hc.2) q
  · exact hOK

theorem pySetCell_of_pyIdx_some {t : Tbl} {q : ℤ} {j : ℕ}
    (h : pyIdx t.length q = some j) (c : Cell) : pySetCell t q c = t.set j c := by
  unfold pySetCell
  rw [h]

theorem getD_set (t : Tbl) (j p : ℕ) (c d : Cell) :
    (t.set j c).getD p d = if j = p ∧ j < t.length then c else t.getD p d := by
  simp only [List.getD_eq_getElem?_getD, List.getElem?_set]
  by_cases hjp : j = p
  · subst hjp
    by_cases hj : j < t.length
    · simp [hj]
    · rw [List.getElem?_eq_none (by omega)]
      simp [hj]
  · simp [hjp]

theorem tbl_ext {t1 t2 : Tbl} (hlen : t1.length = t2.length)
    (h : ∀ p, p < t1.length →
      t1.getD p (F.pinf, -1) = t2.getD p (F.pinf, -1)) : t1 = t2 := by
  apply List.ext_getElem hlen
  intro p h1 h2
  have hp := h p h1
  rwa [List.getD_eq_getElem?_getD, List.getD_eq_getElem?_getD,
    List.getElem?_eq_getElem h1, List.getElem?_eq_getElem h2,
    Option.getD_some, Option.getD_some] at hp

/-- Merging a fixed table into slot 0 commutes with one conditional
strict-improvement write: the heart of reduction correctness. -/
theorem mergeTbl_condWrite (A B : Tbl) (hlen : A.length = B.length)
    (hB : tblOK B) (g : Prop) [Decidable g] (d : F) (q jv : ℤ) :
    mergeTbl A (if g ∧ F.lt d (pyGetCell B q).1 = true
        then pySetCell B q (d, jv) else B)
      = (if g ∧ F.lt d (pyGetCell (mergeTbl A B) q).1 = true
        then pySetCell (mergeTbl A B) q (d, jv) else mergeTbl A B) := by
  have hMlen : (mergeTbl A B).length = B.length := by
    rw [mergeTbl_length]; omega
  rcases hidx : pyIdx B.length q with _ | j
  · rw [pySetCell_of_pyIdx_none hidx,
      pySetCell_of_pyIdx_none (t := mergeTbl A B) (by rw [hMlen]; exact hidx)]
    split_ifs <;> rfl
  · have hj : j < B.length := pyIdx_lt hidx
    rw [pyGetCell_of_pyIdx hidx, pySetCell_of_pyIdx_some hidx,
      pyGetCell_of_pyIdx (t := mergeTbl A B) (by rw [hMlen]; exact hidx),
      pySetCell_of_pyIdx_some (t := mergeTbl A B) (by rw [hMlen]; exact hidx),
      getD_mergeTbl A B hlen j]
    have hWlen : (if g ∧ F.lt d (B.getD j (F.pinf, -1)).1 = true
        then B.set j (d, jv) else B).length = B.length := by
      split_ifs <;> simp
    apply tbl_ext
    · rw [mergeTbl_length, hWlen]
      split_ifs <;> simp [mergeTbl_length, hlen]
    · intro p hp
      have hplen : p < B.length := by
        rw [mergeTbl_length, hWlen] at hp; omega
      rw [getD_mergeTbl A _ (by rw [hWlen, hlen]) p]
      by_cases hpj : p = j
      · subst hpj
        have hW : (if g ∧ F.lt d (B.getD p (F.pinf, -1)).1 = true
            then B.set p (d, jv) else B).getD p (F.pinf, -1)
            = (if g ∧ F.lt d (B.getD p (F.pinf, -1)).1 = true
              then (d, jv) else B.getD p (F.pinf, -1)) := by
          split_ifs with hc
          · rw [getD_set, if_pos ⟨rfl, hj⟩]
          · rfl
        have hR : (if g ∧ F.lt d (mergeCell (A.getD p (F.pinf, -1))
              (B.getD p (F.pinf, -1))).1 = true
            then (mergeTbl A B).set p (d, jv) else mergeTbl A B).getD p
              (F.pinf, -1)
            = (if g ∧ F.lt d (mergeCell (A.getD p (F.pinf, -1))
              (B.getD p (F.pinf, -1))).1 = true
              then (d, jv) else mergeCell (A.getD p (F.pinf, -1))
                (B.getD p (F.pinf, -1))) := by
          split_ifs with hc
          · rw [getD_set, if_pos ⟨rfl, by omega⟩]
          · exact getD_mergeTbl A B hlen p
        rw [hW, hR]
        exact mergeCell_condUpd g d jv (hB _ (getD_mem hj _))
      · have hW : (if g ∧ F.lt d (B.getD j (F.pinf, -1)).1 = true
            then B.set j (d, jv) else B).getD p (F.pinf, -1)
            = B.getD p (F.pinf, -1) := by
          split_ifs
          · rw [getD_set, if_neg (by intro hc; exact hpj hc.1.symm)]
          · rfl
        have hR : (if g ∧ F.lt d (mergeCell (A.getD j (F.pinf, -1))
              (B.getD j (F.pinf, -1))).1 = true
            then (mergeTbl A B).set j (d, jv) else mergeTbl A B).getD p
              (F.pinf, -1)
            = (mergeTbl A B).getD p (F.pinf, -1) := by
          split_ifs
          · rw [getD_set, if_neg (by intro hc; exact hpj hc.1.symm)]
          · rfl
        rw [hW, hR, getD_mergeTbl A B hlen p]

theorem mergeTbl_twoWrites (A B : Tbl) (hlen : A.length = B.length)
    (hB : tblOK B) (g : Prop) [Decidable g] (d : F) (q1 q2 jv1 jv2 : ℤ) :
    mergeTbl A
      (if g ∧ F.lt d (pyGetCell
          (if g ∧ F.lt d (pyGetCell B q1).1 = true
            then pySetCell B q1 (d, jv1) else B) q2).1 = true
        then pySetCell (if g ∧ F.lt d (pyGetCell B q1).1 = true
            then pySetCell B q1 (d, jv1) else B) q2 (d, jv2)
        else (if g ∧ F.lt d (pyGetCell B q1).1 = true
            then pySetCell B q1 (d, jv1) else B))
      = (if g ∧ F.lt d (pyGetCell
          (if g ∧ F.lt d (pyGetCell (mergeTbl A B) q1).1 = true
            then pySetCell (mergeTbl A B) q1 (d, jv1) else mergeTbl A B) q2).1
              = true
        then pySetCell (if g ∧ F.lt d (pyGetCell (mergeTbl A B) q1).1 = true
            then pySetCell (mergeTbl A B) q1 (d, jv1) else mergeTbl A B) q2
          (d, jv2)
        else (if g ∧ F.lt d (pyGetCell (mergeTbl A B) q1).1 = true
            then pySetCell (mergeTbl A B) q1 (d, jv1) else mergeTbl A B)) := by
  have h1 := mergeTbl_condWrite A B hlen hB g d q1 jv1
  have hWlen : A.length
      = (if g ∧ F.lt d (pyGetCell B q1).1 = true
        then pySetCell B q1 (d, jv1) else B).length := by
    split_ifs
    · rw [pySetCell_length]; exact hlen
    · exact hlen
  have hWOK : tblOK (if g ∧ F.lt d (pyGetCell B q1).1 = true
      then pySetCell B q1 (d, jv1) else B) :=
    tblOK_condWrite hB g q1 jv1 (pyGetCell B q1).1
  have h2 := mergeTbl_condWrite A _ hWlen hWOK g d q2 jv2
  rw [h2, h1]

theorem mergeTbl_diagStep (T μ σ : List ℚ) (m : ℕ) (e k : ℤ) (A B : Tbl)
    (hlen : A.length = B.length) (hB : tblOK B) (i : ℕ) :
    mergeTbl A (diagStep T μ σ m e k B i)
      = diagStep T μ σ m e k (mergeTbl A B) i := by
  simp only [diagStep]
  exact mergeTbl_twoWrites A B hlen hB _ _ _ _ _ _

theorem diagStep_length (T μ σ : List ℚ) (m : ℕ) (e k : ℤ) (B : Tbl) (i : ℕ) :
    (diagStep T μ σ m e k B i).length = B.length := by
  simp only [diagStep]
  split_ifs <;> simp [pySetCell_length]

theorem diagStep_OK (T μ σ : List ℚ) (m : ℕ) (e k : ℤ) {B : Tbl}
    (hB : tblOK B) (i : ℕ) : tblOK (diagStep T μ σ m e k B i) := by
  simp only [diagStep]
  exact tblOK_condWrite (tblOK_condWrite hB _ _ _ _) _ _ _ _

theorem walkDiag_length (T μ σ : List ℚ) (m : ℕ) (e k : ℤ) (B : Tbl) :
    (walkDiag T μ σ m e k B).length = B.length := by
  unfold walkDiag
  generalize (List.range ((T.length : ℤ) - m + 2 - k).toNat) = idxs
  induction idxs generalizing B with
  | nil => rfl
  | cons x xs ih => rw [List.foldl_cons, ih, diagStep_length]

theorem walkDiag_OK (T μ σ : List ℚ) (m : ℕ) (e k : ℤ) {B : Tbl}
    (hB : tblOK B) : tblOK (walkDiag T μ σ m e k B) := by
  unfold walkDiag
  generalize (List.range ((T.length : ℤ) - m + 2 - k).toNat) = idxs
  induction idxs generalizing B with
  | nil => exact hB
  | cons x xs ih => exact ih (diagStep_OK T μ σ m e k hB x)

theorem mergeTbl_walkDiag (T μ σ : List ℚ) (m : ℕ) (e k : ℤ) (A B : Tbl)
    (hlen : A.length = B.length) (hB : tblOK B) :
    mergeTbl A (walkDiag T μ σ m e k B)
      = walkDiag T μ σ m e k (mergeTbl A B) := by
  unfold walkDiag
  generalize (List.range ((T.length : ℤ) - m + 2 - k).toNat) = idxs
  induction idxs generalizing B with
  | nil => rfl
  | cons x xs ih =>
      rw [List.foldl_cons, List.foldl_cons,
        ih (diagStep T μ σ m e k B x)
          (by rw [diagStep_length]; exact hlen) (diagStep_OK T μ σ m e k hB x),
        mergeTbl_diagStep T μ σ m e k A B hlen hB x]

theorem computeDiagonal_length (T μ σ : List ℚ) (m : ℕ) (e : ℤ)
    (orders : List ℤ) (a b : ℕ) (B : Tbl) :
    (computeDiagonal T μ σ m e orders a b B).length = B.length := by
  unfold computeDiagonal
  generalize ((orders.drop a).take (b - a)) = ks
  induction ks generalizing B with
  | nil => rfl
  | cons x xs ih => rw [List.foldl_cons, ih, walkDiag_length]

theorem computeDiagonal_OK (T μ σ : List ℚ) (m : ℕ) (e : ℤ)
    (orders : List ℤ) (a b : ℕ) {B : Tbl} (hB : tblOK B) :
    tblOK (computeDiagonal T μ σ m e orders a b B) := by
  unfold computeDiagonal
  generalize ((orders.drop a).take (b - a)) = ks
  induction ks generalizing B with
  | nil => exact hB
  | cons x xs ih => exact ih (walkDiag_OK T μ σ m e x hB)

theorem mergeTbl_computeDiagonal (T μ σ : List ℚ) (m : ℕ) (e : ℤ)
    (orders : List ℤ) (a b : ℕ) (A B : Tbl)
    (hlen : A.length = B.length) (hB : tblOK B) :
    mergeTbl A (computeDiagonal T μ σ m e orders a b B)
      = computeDiagonal T μ σ m e orders a b (mergeTbl A B) := by
  unfold computeDiagonal
  generalize ((orders.drop a).take (b - a)) = ks
  induction ks generalizing B with
  | nil => rfl
  | cons x xs ih =>
      rw [List.foldl_cons, List.foldl_cons,
        ih (walkDiag T μ σ m e x B)
          (by rw [walkDiag_length]; exact hlen) (walkDiag_OK T μ σ m e x hB),
        mergeTbl_walkDiag T μ σ m e x A B hlen hB]

theorem getD_initTbl (l p : ℕ) : (initTbl l).getD p (F.pinf, -1) = (F.pinf, -1) := by
  unfold initTbl
  rw [List.getD_eq_getElem?_getD, List.getElem?_replicate]
  split_ifs <;> rfl

theorem initTbl_OK (l : ℕ) : tblOK (initTbl l) := by
  intro c hc
  have := List.eq_of_mem_replicate hc
  subst this
  simp

theorem mergeTbl_initTbl (A : Tbl) (l : ℕ) (h : A.length = l) :
    mergeTbl A (initTbl l) = A := by
  apply tbl_ext
  · rw [mergeTbl_length]
    simp [initTbl, h]
  · intro p hp
    rw [getD_mergeTbl A _ (by simp [initTbl, h]) p, getD_initTbl,
      mergeCell_pinf]

theorem computeDiagonal_self (T μ σ : List ℚ) (m : ℕ) (e : ℤ)
    (orders : List ℤ) (c : ℕ) (t : Tbl) :
    computeDiagonal T μ σ m e orders c c t = t := by
  unfold computeDiagonal
  simp

theorem computeDiagonal_split (T μ σ : List ℚ) (m : ℕ) (e : ℤ)
    (orders : List ℤ) {a c b : ℕ} (hac : a ≤ c) (hcb : c ≤ b) (t : Tbl) :
    computeDiagonal T μ σ m e orders a b t
      = computeDiagonal T μ σ m e orders c b
          (computeDiagonal T μ σ m e orders a c t) := by
  unfold computeDiagonal
  rw [← List.foldl_append]
  congr 1
  have hdr : List.drop (c - a) (List.drop a orders) = List.drop c orders := by
    rw [List.drop_drop]
    congr 1
    omega
  calc (orders.drop a).take (b - a)
      = (orders.drop a).take ((c - a) + (b - c)) := by
        congr 1
        omega
    _ = (orders.drop a).take (c - a)
        ++ ((orders.drop a).drop (c - a)).take (b - c) := List.take_add _ _ _
    _ = (orders.drop a).take (c - a) ++ (orders.drop c).take (b - c) := by
        rw [hdr]

theorem chainFrom_le {rs : List (ℕ × ℕ)} {a b : ℕ} (h : chainFrom rs a b) :
    a ≤ b := by
  induction rs generalizing a with
  | nil => exact le_of_eq h
  | cons r rest ih =>
      obtain ⟨h1, h2, h3⟩ := h
      exact le_trans h2 (ih h3)

/-- Reducing the worker tables of a chained list of ranges into an
accumulator table equals continuing the sequential walk from the
accumulator. -/
theorem reduce_eq_seq (T μ σ : List ℚ) (m : ℕ) (e : ℤ) (orders : List ℤ)
    (l : ℕ) (rs : List (ℕ × ℕ)) :
    ∀ (c b : ℕ) (A : Tbl), A.length = l → tblOK A → chainFrom rs c b →
    List.foldl mergeTbl A
      (rs.map (fun r => computeDiagonal T μ σ m e orders r.1 r.2 (initTbl l)))
      = computeDiagonal T μ σ m e orders c b A := by
  induction rs with
  | nil =>
      intro c b A _ _ hch
      obtain rfl : c = b := hch
      rw [List.map_nil, List.foldl_nil, computeDiagonal_self]
  | cons r rest ih =>
      intro c b A hlen hOK hch
      obtain ⟨h1, h2, h3⟩ := hch
      rw [List.map_cons, List.foldl_cons,
        mergeTbl_computeDiagonal T μ σ m e orders r.1 r.2 A (initTbl l)
          (by simp [initTbl, hlen]) (initTbl_OK l),
        mergeTbl_initTbl A l hlen,
        ih r.2 b _
          (by rw [computeDiagonal_length]; exact hlen)
          (computeDiagonal_OK T μ σ m e orders r.1 r.2 hOK) h3,
        ← computeDiagonal_split T μ σ m e orders (h1 ▸ h2) (chainFrom_le h3)]
      rw [h1]

/-- C2.  For any partition of the diagonal order range [a, b) into
contiguous worker ranges (one worker table per range, each initialized to
(+inf, -1), reduced into slot 0 by element-wise minimum with the index
copied along), _scrimp computes exactly the profile of a single worker
processing [a, b) sequentially, reported as (np.sqrt(P_0), I_0). -/
theorem c2_reduction_correct (T μ σ : List ℚ) (m : ℕ) (orders : List ℤ)
    (ranges : List (ℕ × ℕ)) (a b : ℕ) (e : ℤ)
    (hch : chainFrom ranges a b) :
    scrimpPar T μ σ m orders ranges e = scrimpSeq T μ σ m orders a b e := by
  cases ranges with
  | nil =>
      obtain rfl : a = b := hch
      simp only [scrimpPar, scrimpSeq, List.map_nil]
      rw [computeDiagonal_self]
  | cons r rest =>
      obtain ⟨h1, h2, h3⟩ := hch
      simp only [scrimpPar, scrimpSeq, List.map_cons]
      have hred := reduce_eq_seq T μ σ m e orders (T.length - m + 1) rest
        r.2 b (computeDiagonal T μ σ m e orders r.1 r.2
          (initTbl (T.length - m + 1)))
        (by rw [computeDiagonal_length]; simp [initTbl])
        (computeDiagonal_OK T μ σ m e orders r.1 r.2
          (initTbl_OK (T.length - m + 1))) h3
      rw [hred,
        ← computeDiagonal_split T μ σ m e orders (h1 ▸ h2) (chainFrom_le h3),
        h1]

/-- Witness for C2 at a concrete input: three workers over the partition
[0, 2), [2, 4), [4, 6) of the six diagonals of a length-9 series. -/
theorem c2_reduction_correct_witness :
    chainFrom [(0, 2), (2, 4), (4, 6)] 0 6
      ∧ scrimpPar [1, 1, 1, 0, 0, 0, 1, 1, 1] (List.replicate 7 0)
          (List.replicate 7 1) 3 [2, 3, 4, 5, 6, 7] [(0, 2), (2, 4), (4, 6)] 1
        = scrimpSeq [1, 1, 1, 0, 0, 0, 1, 1, 1] (List.replicate 7 0)
          (List.replicate 7 1) 3 [2, 3, 4, 5, 6, 7] 0 6 1 := by
  have hch : chainFrom [(0, 2), (2, 4), (4, 6)] 0 6 := by
    simp [chainFrom]
  exact ⟨hch, c2_reduction_correct _ _ _ _ _ _ _ _ _ hch⟩

/-! Monotonicity of the running profile across yields. -/

theorem Rt.le_refl (a : Rt) : Rt.le a a := Or.inr rfl

theorem Rt.lt_trans_rt {a b c : Rt} (h1 : Rt.lt a b = true)
    (h2 : Rt.lt b c = true) : Rt.lt a c = true := F.lt_trans h1 h2

theorem Rt.le_trans {a b c : Rt} (h1 : Rt.le a b) (h2 : Rt.le b c) :
    Rt.le a c := by
  rcases h1 with h1 | rfl
  · rcases h2 with h2 | rfl
    · exact Or.inl (Rt.lt_trans_rt h1 h2)
    · exact Or.inl h1
  · exact h2

theorem getD_zipWith {α : Type} (f : α → α → α) (A B : List α) (d : α)
    (hlen : A.length = B.length) (hd : f d d = d) (p : ℕ) :
    (List.zipWith f A B).getD p d = f (A.getD p d) (B.getD p d) := by
  by_cases hp : p < A.length
  · simp only [List.getD_eq_getElem?_getD]
    rw [List.getElem?_eq_getElem (l := List.zipWith f A B)
        (by rw [List.length_zipWith]; omega),
      List.getElem_zipWith,
      List.getElem?_eq_getElem (l := A) hp,
      List.getElem?_eq_getElem (l := B) (by omega)]
    rfl
  · have h1 : A[p]? = none := by rw [List.getElem?_eq_none]; omega
    have h2 : B[p]? = none := by rw [List.getElem?_eq_none]; omega
    have h3 : (List.zipWith f A B)[p]? = none :=
      List.getElem?_eq_none (by rw [List.length_zipWith]; omega)
    simp [List.getD_eq_getElem?_getD, h1, h2, h3, hd]

theorem mergeOut_length (out PI : List (Rt × ℤ)) :
    (mergeOut out PI).length = min out.length PI.length := by
  simp [mergeOut]

theorem getD_mergeOut (out PI : List (Rt × ℤ))
    (hlen : out.length = PI.length) (p : ℕ) :
    (mergeOut out PI).getD p (Rt.inf, -1)
      = (if Rt.lt (PI.getD p (Rt.inf, -1)).1 (out.getD p (Rt.inf, -1)).1 = true
        then PI.getD p (Rt.inf, -1) else out.getD p (Rt.inf, -1)) := by
  unfold mergeOut
  rw [getD_zipWith _ _ _ _ hlen (by simp [Rt.lt, Rt.norm, Rt.inf, F.lt]) p]

theorem mergeOut_le (out PI : List (Rt × ℤ))
    (hlen : out.length = PI.length) (p : ℕ) :
    Rt.le ((mergeOut out PI).getD p (Rt.inf, -1)).1
      ((out.getD p (Rt.inf, -1)).1) := by
  rw [getD_mergeOut out PI hlen p]
  split_ifs with h
  · exact Or.inl h
  · exact Rt.le_refl _

theorem foldl_mergeTbl_length (t0 : Tbl) (ts : List Tbl) :
    (List.foldl mergeTbl t0 ts).length
      = List.foldl (fun n t => min n t.length) t0.length ts := by
  induction ts generalizing t0 with
  | nil => rfl
  | cons x xs ih => rw [List.foldl_cons, List.foldl_cons, ih, mergeTbl_length]

theorem scrimpPar_length (T μ σ : List ℚ) (m : ℕ) (orders : List ℤ)
    (ranges : List (ℕ × ℕ)) (e : ℤ) :
    (scrimpPar T μ σ m orders ranges e).length = T.length - m + 1 := by
  unfold scrimpPar
  rw [List.length_map]
  cases ranges with
  | nil => simp [initTbl]
  | cons r rest =>
      rw [List.map_cons, foldl_mergeTbl_length]
      have : ∀ ts : List Tbl, (∀ t ∈ ts, t.length = T.length - m + 1) →
          ∀ n0, n0 = T.length - m + 1 →
          List.foldl (fun n t => min n t.length) n0 ts = T.length - m + 1 := by
        intro ts
        induction ts with
        | nil => intro _ n0 h; exact h
        | cons x xs ih =>
            intro hmem n0 hn0
            rw [List.foldl_cons]
            exact ih (fun t ht => hmem t (List.mem_cons_of_mem _ ht)) _
              (by rw [hn0, hmem x (List.mem_cons_self _ _)]; omega)
      apply this
      · intro t ht
        obtain ⟨rr, _, rfl⟩ := List.mem_map.mp ht
        rw [computeDiagonal_length]
        simp [initTbl]
      · rw [computeDiagonal_length]
        simp [initTbl]

/-- Every later yield is pointwise at or below the profile the rounds loop
started from. -/
theorem scrimpGo_le_start (T μ σ : List ℚ) (m nThreads : ℕ)
    (orders : List ℤ) (e : ℤ) (pct : ℚ) :
    ∀ (rounds : ℕ) (out : List (Rt × ℤ)) (start : ℕ) (t i : ℕ),
    out.length = T.length - m + 1 →
    t < (scrimpGo T μ σ m nThreads orders e pct rounds out start).length →
    Rt.le (((scrimpGo T μ σ m nThreads orders e pct rounds out start).getD t
        []).getD i (Rt.inf, -1)).1
      ((out.getD i (Rt.inf, -1)).1) := by
  intro rounds
  induction rounds with
  | zero => intro out start t i _ ht; simp [scrimpGo] at ht
  | succ rd ih =>
      intro out start t i hlen ht
      have hPIlen : (scrimpPar T μ σ m orders
          (getOrdersRanges nThreads (↑m) (↑T.length) orders start pct) e).length
          = T.length - m + 1 := scrimpPar_length _ _ _ _ _ _ _
      have hm1len : (mergeOut out (scrimpPar T μ σ m orders
          (getOrdersRanges nThreads (↑m) (↑T.length) orders start pct) e)).length
          = T.length - m + 1 := by
        rw [mergeOut_length, hPIlen, hlen]
        omega
      cases t with
      | zero =>
          simp only [scrimpGo, List.getD_cons_zero]
          exact mergeOut_le out _ (by rw [hPIlen, hlen]) i
      | succ t1 =>
          simp only [scrimpGo, List.getD_cons_succ]
          have ht1 : t1 < (scrimpGo T μ σ m nThreads orders e pct rd
              (mergeOut out (scrimpPar T μ σ m orders
                (getOrdersRanges nThreads (↑m) (↑T.length) orders start pct) e))
              ((List.map Prod.snd (getOrdersRanges nThreads (↑m) (↑T.length)
                orders start pct)).foldl max 0)).length := by
            simp only [scrimpGo, List.length_cons] at ht
            omega
          exact Rt.le_trans (ih _ _ t1 i hm1len ht1)
            (mergeOut_le out _ (by rw [hPIlen, hlen]) i)

/-- Between any two yields of the rounds loop, the later profile is
pointwise at or below the earlier one. -/
theorem scrimpGo_le (T μ σ : List ℚ) (m nThreads : ℕ) (orders : List ℤ)
    (e : ℤ) (pct : ℚ) :
    ∀ (rounds : ℕ) (out : List (Rt × ℤ)) (start : ℕ) (r t i : ℕ),
    out.length = T.length - m + 1 →
    r ≤ t →
    t < (scrimpGo T μ σ m nThreads orders e pct rounds out start).length →
    Rt.le (((scrimpGo T μ σ m nThreads orders e pct rounds out start).getD t
        []).getD i (Rt.inf, -1)).1
      (((scrimpGo T μ σ m nThreads orders e pct rounds out start).getD r
        []).getD i (Rt.inf, -1)).1 := by
  intro rounds
  induction rounds with
  | zero => intro out start r t i _ _ ht; simp [scrimpGo] at ht
  | succ rd ih =>
      intro out start r t i hlen hrt ht
      have hPIlen : (scrimpPar T μ σ m orders
          (getOrdersRanges nThreads (↑m) (↑T.length) orders start pct) e).length
          = T.length - m + 1 := scrimpPar_length _ _ _ _ _ _ _
      have hm1len : (mergeOut out (scrimpPar T μ σ m orders
          (getOrdersRanges nThreads (↑m) (↑T.length) orders start pct) e)).length
          = T.length - m + 1 := by
        rw [mergeOut_length, hPIlen, hlen]
        omega
      cases r with
      | zero =>
          cases t with
          | zero => exact Rt.le_refl _
          | succ t1 =>
              simp only [scrimpGo, List.getD_cons_succ, List.getD_cons_zero]
              have ht1 : t1 < (scrimpGo T μ σ m nThreads orders e pct rd
                  (mergeOut out (scrimpPar T μ σ m orders
                    (getOrdersRanges nThreads (↑m) (↑T.length) orders start pct)
                      e))
                  ((List.map Prod.snd (getOrdersRanges nThreads (↑m)
                    (↑T.length) orders start pct)).foldl max 0)).length := by
                simp only [scrimpGo, List.length_cons] at ht
                omega
              exact scrimpGo_le_start T μ σ m nThreads orders e pct rd _ _ t1 i
                hm1len ht1
      | succ r1 =>
          cases t with
          | zero => omega
          | succ t1 =>
              simp only [scrimpGo, List.getD_cons_succ]
              have ht1 : t1 < (scrimpGo T μ σ m nThreads orders e pct rd
                  (mergeOut out (scrimpPar T μ σ m orders
                    (getOrdersRanges nThreads (↑m) (↑T.length) orders start pct)
                      e))
                  ((List.map Prod.snd (getOrdersRanges nThreads (↑m)
                    (↑T.length) orders start pct)).foldl max 0)).length := by
                simp only [scrimpGo, List.length_cons] at ht
                omega
              exact ih _ _ r1 t1 i hm1len (by omega) ht1

theorem condSet_length (t : Tbl) (g : Prop) [Decidable g] (q : ℤ) (c : Cell) :
    (if g then pySetCell t q c else t).length = t.length := by
  split_ifs <;> simp [pySetCell_length]

theorem extStepFwd_length (T μ σ : List ℚ) (m : ℕ) (i j : ℤ)
    (st : F × Tbl) (k : ℕ) :
    (extStepFwd T μ σ m i j st k).2.length = st.2.length := by
  simp only [extStepFwd]
  rw [condSet_length, condSet_length]

theorem extStepBwd_length (T μ σ : List ℚ) (m : ℕ) (i j : ℤ)
    (st : F × Tbl) (k : ℕ) :
    (extStepBwd T μ σ m i j st k).2.length = st.2.length := by
  simp only [extStepBwd]
  rw [condSet_length, condSet_length]

theorem foldl_extStepFwd_length (T μ σ : List ℚ) (m : ℕ) (i j : ℤ)
    (ks : List ℕ) : ∀ st : F × Tbl,
    ((ks.foldl (extStepFwd T μ σ m i j) st).2).length = st.2.length := by
  induction ks with
  | nil => intro st; rfl
  | cons x xs ih =>
      intro st
      rw [List.foldl_cons, ih, extStepFwd_length]

theorem foldl_extStepBwd_length (T μ σ : List ℚ) (m : ℕ) (i j : ℤ)
    (ks : List ℕ) : ∀ st : F × Tbl,
    ((ks.foldl (extStepBwd T μ σ m i j) st).2).length = st.2.length := by
  induction ks with
  | nil => intro st; rfl
  | cons x xs ih =>
      intro st
      rw [List.foldl_cons, ih, extStepBwd_length]

theorem prescrimpExtend_length (T μ σ : List ℚ) (m s : ℕ) (st : Tbl)
    (i : ℕ) : (prescrimpExtend T μ σ m s st i).length = st.length := by
  simp only [prescrimpExtend]
  rw [foldl_extStepBwd_length, foldl_extStepFwd_length]

theorem prescrimpSample_length (T μ σ : List ℚ) (m s : ℕ) (e : ℤ)
    (st : Tbl) (i : ℕ) :
    (prescrimpSample T μ σ m s e st i).length = st.length := by
  simp only [prescrimpSample]
  rw [prescrimpExtend_length]
  have hscan : ∀ (D : List F) (idxs : List ℕ) (t : Tbl),
      (idxs.foldl (fun t j =>
        if F.lt (D.getD j F.pinf) (pyGetCell t j).1 = true
        then pySetCell t j (D.getD j F.pinf, (i : ℤ)) else t) t).length
        = t.length := by
    intro D idxs
    induction idxs with
    | nil => intro t; rfl
    | cons x xs ih =>
        intro t
        rw [List.foldl_cons, ih, condSet_length]
  rw [hscan, condSet_length, pySetCell_length]

theorem prescrimpRun_length (T μ σ : List ℚ) (m s : ℕ) (samples : List ℕ) :
    (prescrimpRun T μ σ m s samples).length = T.length - m + 1 := by
  simp only [prescrimpRun]
  rw [List.length_map]
  have : ∀ (ss : List ℕ) (t : Tbl),
      (ss.foldl (prescrimpSample T μ σ m s ⌈(m : ℚ) / 4⌉) t).length
        = t.length := by
    intro ss
    induction ss with
    | nil => intro t; rfl
    | cons x xs ih =>
        intro t
        rw [List.foldl_cons, ih, prescrimpSample_length]
  rw [this]
  simp [initTbl]

theorem scrimpRun_start_length (T0 : List F) (μ σ : List ℚ) (m : ℕ)
    (pre : Bool) (s : ℕ) (samples : List ℕ) :
    (if pre then mergeOut (List.replicate ((normT T0).length - m + 1)
        (Rt.inf, -1)) (prescrimpRun (normT T0) μ σ m s samples)
      else List.replicate ((normT T0).length - m + 1) (Rt.inf, -1)).length
      = (normT T0).length - m + 1 := by
  split_ifs
  · rw [mergeOut_length, prescrimpRun_length]
    simp
  · simp

/-- Between any two yields of scrimp, the later profile is pointwise at or
below the earlier one. -/
theorem scrimpRun_le (T0 : List F) (μ σ : List ℚ) (m nThreads : ℕ)
    (pct : ℚ) (pre : Bool) (s : ℕ) (orders : List ℤ) (samples : List ℕ)
    (r t i : ℕ) (hrt : r ≤ t)
    (h : t < (scrimpRun T0 μ σ m nThreads pct pre s orders samples).length) :
    Rt.le
      (((scrimpRun T0 μ σ m nThreads pct pre s orders samples).getD t
        []).getD i (Rt.inf, -1)).1
      (((scrimpRun T0 μ σ m nThreads pct pre s orders samples).getD r
        []).getD i (Rt.inf, -1)).1 := by
  simp only [scrimpRun] at h ⊢
  exact scrimpGo_le (normT T0) μ σ m nThreads orders (⌈(m : ℚ) / 4⌉)
    (max (min pct 1) 0) _ _ 0 r t i
    (scrimpRun_start_length T0 μ σ m pre s samples) hrt h

/-- C1.  Monotonic improvement: for every two successive snapshots yielded
by scrimp (over any series, statistics, permutations, thread count, stride,
percentage, and with or without the PreSCRIMP pass), the later snapshot's
distance value at every position is at or below the earlier one's, because
the running profile is only merged with a round's result by element-wise
minimum and never otherwise overwritten. -/
theorem c1_monotone_improvement (T0 : List F) (μ σ : List ℚ)
    (m nThreads : ℕ) (pct : ℚ) (pre : Bool) (s : ℕ) (orders : List ℤ)
    (samples : List ℕ) (r i : ℕ)
    (h : r + 1 < (scrimpRun T0 μ σ m nThreads pct pre s orders samples).length) :
    Rt.le
      (((scrimpRun T0 μ σ m nThreads pct pre s orders samples).getD (r + 1)
        []).getD i (Rt.inf, -1)).1
      (((scrimpRun T0 μ σ m nThreads pct pre s orders samples).getD r
        []).getD i (Rt.inf, -1)).1 :=
  scrimpRun_le T0 μ σ m nThreads pct pre s orders samples r (r + 1) i
    (by omega) h

section

attribute [local semireducible] Rat.add Rat.mul Rat.sub Rat.inv Rat.ofScientific

/-- Witness for C1: the length-9 series with two rounds at percentage 1/2;
the second yield strictly improves position 0 and the theorem applies at
rounds 0 and 1. -/
theorem c1_monotone_improvement_witness :
    0 + 1 < (scrimpRun ([1, 1, 1, 0, 0, 0, 1, 1, 1].map F.fin)
        (List.replicate 7 0) (List.replicate 7 1) 3 2 (1 / 2) false 1
        [2, 3, 4, 5, 6, 7] []).length
      ∧ Rt.le
        (((scrimpRun ([1, 1, 1, 0, 0, 0, 1, 1, 1].map F.fin)
          (List.replicate 7 0) (List.replicate 7 1) 3 2 (1 / 2) false 1
          [2, 3, 4, 5, 6, 7] []).getD (0 + 1) []).getD 0 (Rt.inf, -1)).1
        (((scrimpRun ([1, 1, 1, 0, 0, 0, 1, 1, 1].map F.fin)
          (List.replicate 7 0) (List.replicate 7 1) 3 2 (1 / 2) false 1
          [2, 3, 4, 5, 6, 7] []).getD 0 []).getD 0 (Rt.inf, -1)).1 := by
  refine ⟨by decide, c1_monotone_improvement _ _ _ _ _ _ _ _ _ _ _ _ (by decide)⟩

set_option maxRecDepth 100000

/-- Counterexample for C9 as stated: at the concrete two-round run, the
snapshot obtained at the first yield, observed after round 2 has run (the
source yields the same array object and mutates it in place), no longer
shows its first-yield contents: round 2's computation changed it. -/
theorem c9_alias_counterexample :
    scrimpObserved ([1, 1, 1, 0, 0, 0, 1, 1, 1].map F.fin)
        (List.replicate 7 0) (List.replicate 7 1) 3 2 (1 / 2) false 1
        [2, 3, 4, 5, 6, 7] [] 0 1
      ≠ (scrimpRun ([1, 1, 1, 0, 0, 0, 1, 1, 1].map F.fin)
        (List.replicate 7 0) (List.replicate 7 1) 3 2 (1 / 2) false 1
        [2, 3, 4, 5, 6, 7] []).getD 0 [] := by
  decide

end

/-- C9 (amended).  The items yielded by scrimp all alias one running array:
the source yields out itself with no copy, so the round-r snapshot observed
after round t shows the round-t profile; the snapshots are not independent
copies, but later observation only shows element-wise improved (or equal)
distance values, never arbitrary changes. -/
theorem c9_alias_amended (T0 : List F) (μ σ : List ℚ) (m nThreads : ℕ)
    (pct : ℚ) (pre : Bool) (s : ℕ) (orders : List ℤ) (samples : List ℕ)
    (r t i : ℕ) (hrt : r ≤ t)
    (ht : t < (scrimpRun T0 μ σ m nThreads pct pre s orders samples).length) :
    scrimpObserved T0 μ σ m nThreads pct pre s orders samples r t
      = (scrimpRun T0 μ σ m nThreads pct pre s orders samples).getD t []
    ∧ Rt.le
      ((scrimpObserved T0 μ σ m nThreads pct pre s orders samples r t).getD i
        (Rt.inf, -1)).1
      (((scrimpRun T0 μ σ m nThreads pct pre s orders samples).getD r
        []).getD i (Rt.inf, -1)).1 := by
  have halias : scrimpObserved T0 μ σ m nThreads pct pre s orders samples r t
      = (scrimpRun T0 μ σ m nThreads pct pre s orders samples).getD t [] := by
    unfold scrimpObserved
    rw [max_eq_right hrt]
  refine ⟨halias, ?_⟩
  rw [halias]
  exact scrimpRun_le T0 μ σ m nThreads pct pre s orders samples r t i hrt ht

section

attribute [local semireducible] Rat.add Rat.mul Rat.sub Rat.inv Rat.ofScientific

/-- Witness for the amended C9 at the concrete two-round run, observing the
first snapshot after the second round. -/
theorem c9_alias_amended_witness :
    0 ≤ 1
      ∧ 1 < (scrimpRun ([1, 1, 1, 0, 0, 0, 1, 1, 1].map F.fin)
        (List.replicate 7 0) (List.replicate 7 1) 3 2 (1 / 2) false 1
        [2, 3, 4, 5, 6, 7] []).length
      ∧ (scrimpObserved ([1, 1, 1, 0, 0, 0, 1, 1, 1].map F.fin)
          (List.replicate 7 0) (List.replicate 7 1) 3 2 (1 / 2) false 1
          [2, 3, 4, 5, 6, 7] [] 0 1
        = (scrimpRun ([1, 1, 1, 0, 0, 0, 1, 1, 1].map F.fin)
          (List.replicate 7 0) (List.replicate 7 1) 3 2 (1 / 2) false 1
          [2, 3, 4, 5, 6, 7] []).getD 1 []
        ∧ Rt.le
          ((scrimpObserved ([1, 1, 1, 0, 0, 0, 1, 1, 1].map F.fin)
            (List.replicate 7 0) (List.replicate 7 1) 3 2 (1 / 2) false 1
            [2, 3, 4, 5, 6, 7] [] 0 1).getD 0 (Rt.inf, -1)).1
          (((scrimpRun ([1, 1, 1, 0, 0, 0, 1, 1, 1].map F.fin)
            (List.replicate 7 0) (List.replicate 7 1) 3 2 (1 / 2) false 1
            [2, 3, 4, 5, 6, 7] []).getD 0 []).getD 0 (Rt.inf, -1)).1) := by
  refine ⟨by omega, by decide,
    c9_alias_amended _ _ _ _ _ _ _ _ _ _ 0 1 0 (by omega) (by decide)⟩

end

/-! The percentage walk of the order partitioner. -/

theorem find?_congr {α : Type} {p q : α → Bool} :
    ∀ {l : List α}, (∀ a ∈ l, p a = q a) → l.find? p = l.find? q := by
  intro l
  induction l with
  | nil => intro _; rfl
  | cons x xs ih =>
      intro h
      rw [List.find?_cons, List.find?_cons, h x (List.mem_cons_self _ _),
        ih (fun a ha => h a (List.mem_cons_of_mem _ ha))]

theorem cumCount_stop_le (m n : ℤ) (orders : List ℤ) (s j : ℕ) (hj : j ≤ s) :
    cumCount m n orders s j = 0 := by
  unfold cumCount
  rw [Nat.sub_eq_zero_of_le hj]
  simp

theorem cumCount_cons (m n : ℤ) (orders : List ℤ) {s j : ℕ}
    (hs : s < orders.length) (hj : s < j) :
    cumCount m n orders s j
      = diagCount m n (orders.getD s 0) + cumCount m n orders (s + 1) j := by
  unfold cumCount
  rw [List.drop_eq_getElem_cons hs]
  have h1 : j - s = (j - (s + 1)) + 1 := by omega
  rw [h1]
  rw [List.take_succ_cons, List.map_cons, List.sum_cons,
    List.getD_eq_getElem orders 0 hs]

theorem maxOrderStep_some (m n : ℤ) (orders : List ℤ) (pct : ℚ) (maxN : ℤ)
    (r : ℕ × ℤ) (acc : ℤ) (idx : ℕ) :
    maxOrderStep m n orders pct maxN (some r, acc) idx = (some r, acc) := rfl

theorem foldl_maxOrderStep_some (m n : ℤ) (orders : List ℤ) (pct : ℚ)
    (maxN : ℤ) (idxs : List ℕ) (r : ℕ × ℤ) (acc : ℤ) :
    idxs.foldl (maxOrderStep m n orders pct maxN) (some r, acc)
      = (some r, acc) := by
  induction idxs with
  | nil => rfl
  | cons x xs ih => rw [List.foldl_cons, maxOrderStep_some, ih]

/-- The break-on-threshold walk, characterised by find?: it stops right
after the first index whose cumulative count pushes the fraction strictly
past the percentage, and otherwise accumulates the whole range. -/
theorem maxOrderWalk_eq (m n : ℤ) (orders : List ℤ) (pct : ℚ) (maxN : ℤ) :
    ∀ (cnt s0 : ℕ) (acc0 : ℤ), s0 + cnt ≤ orders.length →
    (List.range' s0 cnt).foldl (maxOrderStep m n orders pct maxN)
        (none, acc0)
      = (match (List.range' s0 cnt).find? (fun idx =>
          decide ((((acc0 + cumCount m n orders s0 (idx + 1) : ℤ) : ℚ))
            / (maxN : ℚ) > pct)) with
        | some idx => (some (idx + 1, acc0 + cumCount m n orders s0 (idx + 1)),
            acc0 + cumCount m n orders s0 (idx + 1))
        | none => (none, acc0 + cumCount m n orders s0 (s0 + cnt))) := by
  intro cnt
  induction cnt with
  | zero =>
      intro s0 acc0 _
      simp [cumCount_stop_le m n orders s0 s0 (le_refl s0)]
  | succ c ih =>
      intro s0 acc0 hlen
      have hs0 : s0 < orders.length := by omega
      have hone : cumCount m n orders s0 (s0 + 1)
          = diagCount m n (orders.getD s0 0) := by
        rw [cumCount_cons m n orders hs0 (by omega),
          cumCount_stop_le m n orders (s0 + 1) (s0 + 1) (le_refl _)]
        omega
      have hcum : ∀ j, s0 + 1 ≤ j →
          acc0 + diagCount m n (orders.getD s0 0)
            + cumCount m n orders (s0 + 1) j
          = acc0 + cumCount m n orders s0 j := by
        intro j hj
        rw [cumCount_cons m n orders hs0 (by omega)]
        ring
      rw [List.range'_succ, List.foldl_cons, List.find?_cons]
      have hstep : maxOrderStep m n orders pct maxN (none, acc0) s0
          = (if (((acc0 + diagCount m n (orders.getD s0 0) : ℤ) : ℚ))
              / (maxN : ℚ) > pct
            then (some (s0 + 1, acc0 + diagCount m n (orders.getD s0 0)),
              acc0 + diagCount m n (orders.getD s0 0))
            else (none, acc0 + diagCount m n (orders.getD s0 0))) := by
        simp only [maxOrderStep]
      by_cases hP : (((acc0 + diagCount m n (orders.getD s0 0) : ℤ) : ℚ))
          / (maxN : ℚ) > pct
      · rw [hstep, if_pos hP, foldl_maxOrderStep_some]
        have hpred : (decide ((((acc0 + cumCount m n orders s0 (s0 + 1) : ℤ)
            : ℚ)) / (maxN : ℚ) > pct)) = true := by
          rw [hone]
          exact decide_eq_true hP
        rw [hpred]
        simp only [hone]
      · rw [hstep, if_neg hP]
        have hpred : (decide ((((acc0 + cumCount m n orders s0 (s0 + 1) : ℤ)
            : ℚ)) / (maxN : ℚ) > pct)) = false := by
          rw [hone]
          exact decide_eq_false hP
        rw [hpred]
        rw [ih (s0 + 1) (acc0 + diagCount m n (orders.getD s0 0)) (by omega)]
        have hfind : (List.range' (s0 + 1) c).find? (fun idx =>
            decide ((((acc0 + diagCount m n (orders.getD s0 0)
              + cumCount m n orders (s0 + 1) (idx + 1) : ℤ) : ℚ))
              / (maxN : ℚ) > pct))
          = (List.range' (s0 + 1) c).find? (fun idx =>
            decide ((((acc0 + cumCount m n orders s0 (idx + 1) : ℤ) : ℚ))
              / (maxN : ℚ) > pct)) := by
          apply find?_congr
          intro a ha
          have ha1 : s0 + 1 ≤ a := by
            rcases List.mem_range'.mp ha with ⟨off, _, rfl⟩
            omega
          rw [hcum (a + 1) (by omega)]
        rw [hfind]
        rcases hres : (List.range' (s0 + 1) c).find? (fun idx =>
            decide ((((acc0 + cumCount m n orders s0 (idx + 1) : ℤ) : ℚ))
              / (maxN : ℚ) > pct)) with _ | idx
        · simp only []
          rw [hcum (s0 + 1 + c) (by omega)]
          have hidx2 : s0 + 1 + c = s0 + (c + 1) := by omega
          rw [hidx2]
        · have hmem := List.mem_of_find?_eq_some hres
          have hidx : s0 + 1 ≤ idx := by
            rcases List.mem_range'.mp hmem with ⟨off, _, rfl⟩
            omega
          simp only []
          rw [hcum (idx + 1) (by omega)]

theorem getMaxOrderIdx_eq_decl (m n : ℤ) (orders : List ℤ) (start : ℕ)
    (pct : ℚ) :
    getMaxOrderIdx m n orders start pct
      = (declStop m n orders start pct,
        cumCount m n orders start (declStop m n orders start pct)) := by
  simp only [getMaxOrderIdx, declStop]
  by_cases hs : start ≤ orders.length
  · rw [maxOrderWalk_eq m n orders pct
      ((orders.map (fun k => diagCount m n k)).sum)
      (orders.length - start) start 0 (by omega)]
    have hz : (List.range' start (orders.length - start)).find? (fun idx =>
        decide ((((0 + cumCount m n orders start (idx + 1) : ℤ) : ℚ))
          / (((orders.map (fun k => diagCount m n k)).sum : ℤ) : ℚ) > pct))
      = (List.range' start (orders.length - start)).find? (fun idx =>
        decide (((cumCount m n orders start (idx + 1) : ℤ) : ℚ)
          / (((orders.map (fun k => diagCount m n k)).sum : ℤ) : ℚ) > pct)) := by
      apply find?_congr
      intro a _
      rw [zero_add]
    rw [hz]
    rcases hres : (List.range' start (orders.length - start)).find? (fun idx =>
        decide (((cumCount m n orders start (idx + 1) : ℤ) : ℚ)
          / (((orders.map (fun k => diagCount m n k)).sum : ℤ) : ℚ) > pct))
      with _ | idx
    · simp only []
      rw [zero_add]
      have hidx2 : start + (orders.length - start) = orders.length := by omega
      rw [hidx2]
    · simp only []
      rw [zero_add]
  · have hcnt : orders.length - start = 0 := by omega
    rw [hcnt]
    simp [cumCount_stop_le m n orders start orders.length (by omega)]

theorem sum_one_le {l : List ℤ} (h : ∀ x ∈ l, 1 ≤ x) (hne : l ≠ []) :
    1 ≤ l.sum := by
  cases l with
  | nil => exact absurd rfl hne
  | cons x xs =>
      rw [List.sum_cons]
      have hx := h x (List.mem_cons_self _ _)
      have hxs : 0 ≤ xs.sum :=
        List.sum_nonneg (fun y hy => by
          have := h y (List.mem_cons_of_mem _ hy)
          omega)
      omega

theorem segment_sum_le {l : List ℤ} (h : ∀ x ∈ l, 0 ≤ x) (s c : ℕ) :
    ((l.drop s).take c).sum ≤ l.sum := by
  have h1 : l.sum = (l.take s).sum + (l.drop s).sum := by
    rw [← List.sum_append, List.take_append_drop]
  have h2 : (l.drop s).sum
      = ((l.drop s).take c).sum + ((l.drop s).drop c).sum := by
    rw [← List.sum_append, List.take_append_drop]
  have h3 : 0 ≤ (l.take s).sum :=
    List.sum_nonneg (fun y hy => h y (List.mem_of_mem_take hy))
  have h4 : 0 ≤ ((l.drop s).drop c).sum :=
    List.sum_nonneg (fun y hy =>
      h y (List.mem_of_mem_drop (List.mem_of_mem_drop hy)))
  omega

theorem cumCount_le_total (m n : ℤ) (orders : List ℤ)
    (hvalid : ∀ k ∈ orders, k ≤ n - m + 1) (s j : ℕ) :
    cumCount m n orders s j ≤ (orders.map (fun k => diagCount m n k)).sum := by
  unfold cumCount
  rw [List.map_take, List.map_drop]
  exact segment_sum_le (fun x hx => by
    obtain ⟨k, hk, rfl⟩ := List.mem_map.mp hx
    have := hvalid k hk
    unfold diagCount
    omega) s (j - s)

/-- C4 (amended).  _get_max_order_idx walks forward from start accumulating
per-diagonal counts until the running fraction of the total strictly exceeds
the percentage, returning one past the break index together with the count
accumulated up to the break; the total, however, is the sum of
(n - m + 2 - k) over the whole orders array (the source loop at lines 47-49
runs over all of orders), not over orders[start:] as the spec words it.  If
the percentage is at least 1 the stop index is orders.length. -/
theorem c4_max_order_idx_amended (m n : ℤ) (orders : List ℤ) (start : ℕ)
    (pct : ℚ) (hvalid : ∀ k ∈ orders, k ≤ n - m + 1) (hne : orders ≠ []) :
    getMaxOrderIdx m n orders start pct
      = (declStop m n orders start pct,
        cumCount m n orders start (declStop m n orders start pct))
    ∧ (1 ≤ pct → (getMaxOrderIdx m n orders start pct).1 = orders.length) := by
  refine ⟨getMaxOrderIdx_eq_decl m n orders start pct, fun hpct => ?_⟩
  rw [getMaxOrderIdx_eq_decl m n orders start pct]
  simp only [declStop]
  have htot : 1 ≤ (orders.map (fun k => diagCount m n k)).sum := by
    apply sum_one_le
    · intro x hx
      obtain ⟨k, hk, rfl⟩ := List.mem_map.mp hx
      have := hvalid k hk
      unfold diagCount
      omega
    · simp [hne]
  have hfind : (List.range' start (orders.length - start)).find? (fun idx =>
      decide (((cumCount m n orders start (idx + 1) : ℤ) : ℚ)
        / (((orders.map (fun k => diagCount m n k)).sum : ℤ) : ℚ) > pct))
      = none := by
    rw [List.find?_eq_none]
    intro idx _
    simp only [decide_eq_true_eq]
    intro hgt
    have hle : cumCount m n orders start (idx + 1)
        ≤ (orders.map (fun k => diagCount m n k)).sum :=
      cumCount_le_total m n orders hvalid start (idx + 1)
    have htotQ : (0 : ℚ)
        < (((orders.map (fun k => diagCount m n k)).sum : ℤ) : ℚ) := by
      exact_mod_cast htot
    have hfrac : ((cumCount m n orders start (idx + 1) : ℤ) : ℚ)
        / (((orders.map (fun k => diagCount m n k)).sum : ℤ) : ℚ) ≤ 1 := by
      rw [div_le_one htotQ]
      exact_mod_cast hle
    linarith
  rw [hfind]

section

attribute [local semireducible] Rat.add Rat.mul Rat.sub Rat.inv Rat.ofScientific

/-- Counterexample for C4 as stated: with m = 4, n = 12,
orders = [3, 4, 5], start = 1, percentage = 9/20, the source (total over the
whole array, 18) walks past index 1 and returns (3, 11), while the spec's
wording (total over orders[start:], 11) breaks immediately and would give
(2, 6). -/
theorem c4_max_order_idx_counterexample :
    getMaxOrderIdx 4 12 [3, 4, 5] 1 (9 / 20)
      ≠ getMaxOrderIdxSpec 4 12 [3, 4, 5] 1 (9 / 20) := by
  decide

/-- Witness for the amended C4 at the counterexample's input. -/
theorem c4_max_order_idx_amended_witness :
    (∀ k ∈ ([3, 4, 5] : List ℤ), k ≤ 12 - 4 + 1)
      ∧ (([3, 4, 5] : List ℤ) ≠ [])
      ∧ (getMaxOrderIdx 4 12 [3, 4, 5] 1 (9 / 20)
          = (declStop 4 12 [3, 4, 5] 1 (9 / 20),
            cumCount 4 12 [3, 4, 5] 1 (declStop 4 12 [3, 4, 5] 1 (9 / 20)))
        ∧ (1 ≤ (9 / 20 : ℚ) →
          (getMaxOrderIdx 4 12 [3, 4, 5] 1 (9 / 20)).1
            = ([3, 4, 5] : List ℤ).length)) := by
  refine ⟨by decide, by decide,
    c4_max_order_idx_amended 4 12 [3, 4, 5] 1 (9 / 20) (by decide) (by decide)⟩

end

/-! MPdist selection and clamping. -/

theorem pyGetF_nonneg_lt {xs : List F} {x : ℤ} (hx : 0 ≤ x)
    (hlt : x < (xs.length : ℤ)) :
    pyGetF xs x = some (xs.getD x.toNat F.nan) := by
  unfold pyGetF
  rw [pyIdx_nonneg _ _ hx, if_pos hlt]
  rfl

theorem pyGetF_ge {xs : List F} {x : ℤ} (hx : (xs.length : ℤ) ≤ x) :
    pyGetF xs x = none := by
  unfold pyGetF
  have hx0 : 0 ≤ x := le_trans (Int.natCast_nonneg _) hx
  rw [pyIdx_nonneg _ _ hx0, if_neg (by omega)]
  rfl

theorem countFinite_le (xs : List F) : countFinite xs ≤ xs.length := by
  unfold countFinite
  exact List.length_filter_le _ _

/-- The selection rule of _select_P_ABBA_value, for an in-range index:
P_ABBA[k] when finite, otherwise the walk-left fallback
P_ABBA[max(0, count of finite values in P_ABBA[:k] - 1)]. -/
theorem selectPABBA_eq (P : List F) (k : ℕ) (hk : k < P.length) :
    selectPABBA P (k : ℤ)
      = some (if F.isFinite (P.getD k F.nan) = true then P.getD k F.nan
        else P.getD (max 0 ((countFinite (P.take k) : ℤ) - 1)).toNat F.nan) := by
  unfold selectPABBA
  rw [pyGetF_nonneg_lt (Int.natCast_nonneg k) (by exact_mod_cast hk),
    Int.toNat_natCast]
  show (if F.isFinite (P.getD k F.nan) = true then some (P.getD k F.nan)
    else pyGetF P (max 0 ((countFinite (pySliceTo P (k : ℤ)) : ℤ) - 1))) = _
  by_cases hfin : F.isFinite (P.getD k F.nan) = true
  · rw [if_pos hfin, if_pos hfin]
  · rw [if_neg hfin, if_neg hfin]
    have hslice : pySliceTo P (k : ℤ) = P.take k := by
      unfold pySliceTo
      rw [if_neg (by omega), if_pos (Int.natCast_nonneg k), Int.toNat_natCast]
    rw [hslice]
    have hcnt : countFinite (P.take k) ≤ k := by
      have h1 := countFinite_le (P.take k)
      have h2 : (P.take k).length ≤ k := by
        rw [List.length_take]
        omega
      omega
    have hk2 : max 0 ((countFinite (P.take k) : ℤ) - 1) < (P.length : ℤ) := by
      omega
    rw [pyGetF_nonneg_lt (le_max_left 0 _) hk2]

/-- C6.  The MPdist selection (with no custom selector) returns P_ABBA[k]
when that value is finite and otherwise falls back to
P_ABBA[max(0, count of finite values in P_ABBA[:k] - 1)], for every vector
and in-range k; in particular, on [0.1, 0.2, inf, 0.4, inf] with k = 2 it
returns 0.2. -/
theorem c6_select_p_abba :
    (∀ (P : List F) (k : ℕ), k < P.length →
      selectPABBA P (k : ℤ)
        = some (if F.isFinite (P.getD k F.nan) = true then P.getD k F.nan
          else P.getD (max 0 ((countFinite (P.take k) : ℤ) - 1)).toNat F.nan))
    ∧ selectPABBA [F.fin (1 / 10), F.fin (2 / 10), F.pinf, F.fin (4 / 10),
        F.pinf] 2
      = some (F.fin (2 / 10)) := by
  constructor
  · exact selectPABBA_eq
  · rfl

theorem insertF_length (x : F) (xs : List F) :
    (insertF x xs).length = xs.length + 1 := by
  induction xs with
  | nil => rfl
  | cons y ys ih =>
      unfold insertF
      split_ifs
      · simp
      · simp only [List.length_cons, ih]

theorem sortF_length (xs : List F) : (sortF xs).length = xs.length := by
  unfold sortF
  induction xs with
  | nil => rfl
  | cons y ys ih => rw [List.foldr_cons, insertF_length, ih, List.length_cons]

/-- C7 (amended).  In _mpdist with no explicit k, the percentage is clamped
to [0, 1] and the order-statistic index
min(ceil(percentage * (n_A + n_B)), length - 1) is in range, so the
selection succeeds; an explicitly supplied k, however, is used without any
clamping, and an out-of-bounds explicit k (such as k = n_A + n_B, which is
at least the length) makes the selection an IndexError rather than reading
the last entry. -/
theorem c7_mpdist_k_amended (nA nB m : ℕ) (pct : ℚ) (PABBA : List F)
    (hlen : (PABBA.length : ℤ) = (nA : ℤ) - m + 1 + ((nB : ℤ) - m + 1))
    (hpos : 1 ≤ PABBA.length) :
    (mpdistModel nA nB m pct none PABBA
        = selectPABBA (sortF PABBA)
          (min ⌈(max (min pct 1) 0) * ((nA : ℚ) + (nB : ℚ))⌉
            ((nA : ℤ) - m + 1 + ((nB : ℤ) - m + 1) - 1))
      ∧ (mpdistModel nA nB m pct none PABBA).isSome = true)
    ∧ (∀ kk : ℤ, (PABBA.length : ℤ) ≤ kk →
        mpdistModel nA nB m (pct) (some kk) PABBA = none) := by
  have hk0 : 0 ≤ min ⌈(max (min pct 1) 0) * ((nA : ℚ) + (nB : ℚ))⌉
      ((nA : ℤ) - m + 1 + ((nB : ℤ) - m + 1) - 1) := by
    have h1 : (0 : ℚ) ≤ (max (min pct 1) 0) * ((nA : ℚ) + (nB : ℚ)) := by
      apply mul_nonneg (le_max_right _ _)
      positivity
    have h2 : (0 : ℤ) ≤ ⌈(max (min pct 1) 0) * ((nA : ℚ) + (nB : ℚ))⌉ :=
      Int.ceil_nonneg h1
    omega
  constructor
  · constructor
    · rfl
    · simp only [mpdistModel]
      set kq : ℤ := min ⌈(max (min pct 1) 0) * ((nA : ℚ) + (nB : ℚ))⌉
        ((nA : ℤ) - m + 1 + ((nB : ℤ) - m + 1) - 1) with hkq
      have hklt : kq < ((sortF PABBA).length : ℤ) := by
        rw [sortF_length]
        omega
      have hkn : kq = ((kq.toNat : ℕ) : ℤ) := by omega
      rw [hkn, selectPABBA_eq (sortF PABBA) kq.toNat (by omega)]
      rfl
  · intro kk hkk
    simp only [mpdistModel]
    have : selectPABBA (sortF PABBA) kk = none := by
      unfold selectPABBA
      rw [pyGetF_ge (by rw [sortF_length]; omega)]
    exact this

section

attribute [local semireducible] Rat.add Rat.mul Rat.sub Rat.inv Rat.ofScientific

/-- Witness for C6: the selection rule applied at the in-range index 2 of
the five-element example vector. -/
theorem c6_select_p_abba_witness :
    2 < ([F.fin (1 / 10), F.fin (2 / 10), F.pinf, F.fin (4 / 10),
        F.pinf] : List F).length
      ∧ selectPABBA [F.fin (1 / 10), F.fin (2 / 10), F.pinf, F.fin (4 / 10),
          F.pinf] ((2 : ℕ) : ℤ)
        = some (if F.isFinite (([F.fin (1 / 10), F.fin (2 / 10), F.pinf,
            F.fin (4 / 10), F.pinf] : List F).getD 2 F.nan) = true
          then ([F.fin (1 / 10), F.fin (2 / 10), F.pinf, F.fin (4 / 10),
            F.pinf] : List F).getD 2 F.nan
          else ([F.fin (1 / 10), F.fin (2 / 10), F.pinf, F.fin (4 / 10),
            F.pinf] : List F).getD
              (max 0 ((countFinite (([F.fin (1 / 10), F.fin (2 / 10), F.pinf,
                F.fin (4 / 10), F.pinf] : List F).take 2) : ℤ) - 1)).toNat
              F.nan) := by
  refine ⟨by decide, c6_select_p_abba.1 _ 2 (by decide)⟩

/-- Counterexample for C7 as stated: with n_A = n_B = 4, m = 3 (so the
concatenated profile has length 4) and the explicit k = n_A + n_B = 8, the
source indexes P_ABBA[8] and fails (IndexError), instead of clamping to
length - 1 = 3, which would have selected the value 4. -/
theorem c7_mpdist_k_counterexample :
    mpdistModel 4 4 3 (1 / 20) (some 8)
        [F.fin 1, F.fin 2, F.fin 3, F.fin 4] = none
      ∧ selectPABBA (sortF [F.fin 1, F.fin 2, F.fin 3, F.fin 4]) 3
        = some (F.fin 4) := by
  constructor
  · decide
  · decide

/-- Witness for the amended C7 at n_A = n_B = 4, m = 3. -/
theorem c7_mpdist_k_amended_witness :
    (([F.fin 1, F.fin 2, F.fin 3, F.fin 4] : List F).length : ℤ)
        = ((4 : ℕ) : ℤ) - 3 + 1 + (((4 : ℕ) : ℤ) - 3 + 1)
      ∧ 1 ≤ ([F.fin 1, F.fin 2, F.fin 3, F.fin 4] : List F).length
      ∧ ((mpdistModel 4 4 3 (1 / 20) none [F.fin 1, F.fin 2, F.fin 3, F.fin 4]
          = selectPABBA (sortF [F.fin 1, F.fin 2, F.fin 3, F.fin 4])
            (min ⌈(max (min (1 / 20 : ℚ) 1) 0) * (((4 : ℕ) : ℚ) + ((4 : ℕ) : ℚ))⌉
              (((4 : ℕ) : ℤ) - 3 + 1 + (((4 : ℕ) : ℤ) - 3 + 1) - 1))
        ∧ (mpdistModel 4 4 3 (1 / 20) none
            [F.fin 1, F.fin 2, F.fin 3, F.fin 4]).isSome = true)
      ∧ (∀ kk : ℤ,
          (([F.fin 1, F.fin 2, F.fin 3, F.fin 4] : List F).length : ℤ) ≤ kk →
          mpdistModel 4 4 3 (1 / 20) (some kk)
            [F.fin 1, F.fin 2, F.fin 3, F.fin 4] = none)) := by
  refine ⟨by decide, by decide,
    c7_mpdist_k_amended 4 4 3 (1 / 20) _ (by decide) (by decide)⟩

end

/-- C10.  Memory safety of _compute_diagonal's inner loop: for every
diagonal offset k with excl_zone + 1 <= k <= n - m + 1 and every row
0 <= i < n - m + 2 - k, the dot-product and recurrence reads touch T only at
indices in [0, n - 1] (the largest being i + k + m - 2), the statistics
reads touch mu and sigma only at indices i and i + k - 1, which lie in
[0, n - m], and the writes touch rows i and i + k - 1 of the length
l = n - m + 1 profile tables. -/
theorem c10_diag_memory_safety (m n : ℕ) (e k : ℤ) (i : ℕ)
    (hm : 1 ≤ m) (he : 0 ≤ e) (hk1 : e + 1 ≤ k) (hk2 : k ≤ (n : ℤ) - m + 1)
    (hi : (i : ℤ) < (n : ℤ) - m + 2 - k) :
    (∀ t ∈ diagTReads m k i, 0 ≤ t ∧ t ≤ (n : ℤ) - 1)
    ∧ (∀ t ∈ diagStatReads k i, 0 ≤ t ∧ t ≤ (n : ℤ) - m)
    ∧ (∀ t ∈ diagWrites k i, 0 ≤ t ∧ t < (n : ℤ) - m + 1) := by
  refine ⟨?_, ?_, ?_⟩
  · intro t ht
    unfold diagTReads at ht
    split_ifs at ht with h0
    · simp only [List.mem_append, List.mem_map, List.mem_range] at ht
      rcases ht with ⟨off, hoff, rfl⟩ | ⟨off, hoff, rfl⟩ <;> omega
    · have hi1 : 1 ≤ i := by omega
      simp only [List.mem_cons, List.mem_singleton] at ht
      rcases ht with rfl | rfl | rfl | rfl | h
      · omega
      · omega
      · omega
      · omega
      · simp at h
  · intro t ht
    simp only [diagStatReads, List.mem_cons, List.mem_singleton] at ht
    rcases ht with rfl | rfl | h
    · omega
    · omega
    · simp at h
  · intro t ht
    simp only [diagWrites, List.mem_cons, List.mem_singleton] at ht
    rcases ht with rfl | rfl | h
    · omega
    · omega
    · simp at h

/-- Witness for C10 at m = 3, n = 9, excl_zone = 1, k = 2, i = 0. -/
theorem c10_diag_memory_safety_witness :
    (1 ≤ 3 ∧ (0 : ℤ) ≤ 1 ∧ (1 : ℤ) + 1 ≤ 2 ∧ (2 : ℤ) ≤ (9 : ℤ) - 3 + 1
      ∧ ((0 : ℕ) : ℤ) < (9 : ℤ) - 3 + 2 - 2)
    ∧ ((∀ t ∈ diagTReads 3 2 0, 0 ≤ t ∧ t ≤ (9 : ℤ) - 1)
      ∧ (∀ t ∈ diagStatReads 2 0, 0 ≤ t ∧ t ≤ (9 : ℤ) - 3)
      ∧ (∀ t ∈ diagWrites 2 0, 0 ≤ t ∧ t < (9 : ℤ) - 3 + 1)) := by
  refine ⟨⟨by omega, by omega, by omega, by omega, by omega⟩,
    c10_diag_memory_safety 3 9 1 2 0 (by omega) (by omega) (by omega)
      (by omega) (by omega)⟩

/-! The PreSCRIMP bidirectional extension. -/

theorem walker_guard_shift {i j e : ℤ} (hsep : e < |j - i|) (k : ℤ) :
    min (i + k) (j + k) < max (i + k) (j + k) - e := by
  rcases le_total i j with h | h
  · rw [abs_of_nonneg (by omega)] at hsep
    rw [min_eq_left (by omega), max_eq_right (by omega)]
    omega
  · rw [abs_of_nonpos (by omega)] at hsep
    rw [min_eq_right (by omega), max_eq_left (by omega)]
    omega

theorem extStepFwdSpec_eq (T μ σ : List ℚ) (m : ℕ) {e i j : ℤ}
    (hsep : e < |j - i|) (st : F × Tbl) (k : ℕ) :
    extStepFwdSpec T μ σ m e i j st k = extStepFwd T μ σ m i j st k := by
  have hG : min (i + k) (j + k) < max (i + k) (j + k) - e :=
    walker_guard_shift hsep (k : ℤ)
  simp only [extStepFwdSpec, extStepFwd]
  rw [if_congr (and_iff_right hG) rfl rfl, if_congr (and_iff_right hG) rfl rfl]

theorem extStepBwdSpec_eq (T μ σ : List ℚ) (m : ℕ) {e i j : ℤ}
    (hsep : e < |j - i|) (st : F × Tbl) (k : ℕ) :
    extStepBwdSpec T μ σ m e i j st k = extStepBwd T μ σ m i j st k := by
  have hG : min (i - k) (j - k) < max (i - k) (j - k) - e := by
    have := walker_guard_shift hsep (-(k : ℤ))
    have h1 : i + -(k : ℤ) = i - k := by ring
    have h2 : j + -(k : ℤ) = j - k := by ring
    rwa [h1, h2] at this
  simp only [extStepBwdSpec, extStepBwd]
  rw [if_congr (and_iff_right hG) rfl rfl, if_congr (and_iff_right hG) rfl rfl]

/-- C8.  In _prescrimp's extension phase, once the best pair (i, j) is found
(j in range, outside the exclusion zone of i, stride s at least 1), the
source behaves exactly as the spec's guarded description: the seed dot
product is the algebraic reconstruction
QT = (m - P[i] / 2) * sigma_i * sigma_j + m * mu_i * mu_j, the forward walk
performs exactly min(s, l - max(i, j)) - 1 steps and the backward walk
exactly min(s, i + 1, j + 1) - 1 steps, and every step updates the row best
and the column best under the DiagonalWalker strict-improvement and
exclusion-zone rules (the zone condition holds at every one of these
updates because the pair separation is constant along the walk). -/
theorem c8_prescrimp_extension (T μ σ : List ℚ) (m s : ℕ) (e : ℤ)
    (st : Tbl) (i : ℕ)
    (hj0 : 0 ≤ (pyGetCell st i).2)
    (hjl : (pyGetCell st i).2 < ((T.length - m + 1 : ℕ) : ℤ))
    (hil : i < T.length - m + 1)
    (hsep : e < |(pyGetCell st i).2 - (i : ℤ)|)
    (hs : 1 ≤ s) :
    prescrimpExtend T μ σ m s st i = prescrimpExtendSpec T μ σ m s e st i
    ∧ (((min (s : ℤ) (((T.length - m + 1 : ℕ) : ℤ)
          - max (i : ℤ) (pyGetCell st i).2)).toNat - 1 : ℕ) : ℤ)
        = min (s : ℤ) (((T.length - m + 1 : ℕ) : ℤ)
          - max (i : ℤ) (pyGetCell st i).2) - 1
    ∧ (((min (s : ℤ) (min ((i : ℤ) + 1) ((pyGetCell st i).2 + 1))).toNat - 1
          : ℕ) : ℤ)
        = min (s : ℤ) (min ((i : ℤ) + 1) ((pyGetCell st i).2 + 1)) - 1
    ∧ seedQT μ σ m (pyGetCell st i).1 i (pyGetCell st i).2
        = (F.fin m - (pyGetCell st i).1 / F.fin 2)
          * F.fin (pyGet σ i * pyGet σ (pyGetCell st i).2)
          + F.fin (m * pyGet μ i * pyGet μ (pyGetCell st i).2) := by
  refine ⟨?_, by omega, by omega, rfl⟩
  simp only [prescrimpExtend, prescrimpExtendSpec]
  rw [List.foldl_ext (extStepFwdSpec T μ σ m e (i : ℤ) (pyGetCell st i).2)
      (extStepFwd T μ σ m (i : ℤ) (pyGetCell st i).2) _
      (fun a x _ => extStepFwdSpec_eq T μ σ m hsep a x),
    List.foldl_ext (extStepBwdSpec T μ σ m e (i : ℤ) (pyGetCell st i).2)
      (extStepBwd T μ σ m (i : ℤ) (pyGetCell st i).2) _
      (fun a x _ => extStepBwdSpec_eq T μ σ m hsep a x)]

section

attribute [local semireducible] Rat.add Rat.mul Rat.sub Rat.inv Rat.ofScientific

/-- Witness for C8: the best pair (0, 2) with squared distance 4 on the
length-9 series, stride 1, exclusion zone 1. -/
theorem c8_prescrimp_extension_witness :
    (0 ≤ (pyGetCell [(F.fin 4, 2), (F.pinf, -1), (F.fin 4, 0), (F.pinf, -1),
        (F.pinf, -1), (F.pinf, -1), (F.pinf, -1)] (0 : ℕ)).2
      ∧ (pyGetCell [(F.fin 4, 2), (F.pinf, -1), (F.fin 4, 0), (F.pinf, -1),
          (F.pinf, -1), (F.pinf, -1), (F.pinf, -1)] (0 : ℕ)).2
        < ((([1, 1, 1, 0, 0, 0, 1, 1, 1] : List ℚ).length - 3 + 1 : ℕ) : ℤ)
      ∧ (0 : ℕ) < ([1, 1, 1, 0, 0, 0, 1, 1, 1] : List ℚ).length - 3 + 1
      ∧ (1 : ℤ) < |(pyGetCell [(F.fin 4, 2), (F.pinf, -1), (F.fin 4, 0),
          (F.pinf, -1), (F.pinf, -1), (F.pinf, -1), (F.pinf, -1)]
            (0 : ℕ)).2 - ((0 : ℕ) : ℤ)|
      ∧ 1 ≤ 1)
    ∧ prescrimpExtend [1, 1, 1, 0, 0, 0, 1, 1, 1] (List.replicate 7 0)
        (List.replicate 7 1) 3 1
        [(F.fin 4, 2), (F.pinf, -1), (F.fin 4, 0), (F.pinf, -1),
          (F.pinf, -1), (F.pinf, -1), (F.pinf, -1)] 0
      = prescrimpExtendSpec [1, 1, 1, 0, 0, 0, 1, 1, 1] (List.replicate 7 0)
        (List.replicate 7 1) 3 1 1
        [(F.fin 4, 2), (F.pinf, -1), (F.fin 4, 0), (F.pinf, -1),
          (F.pinf, -1), (F.pinf, -1), (F.pinf, -1)] 0 := by
  refine ⟨⟨by decide, by decide, by decide, by decide, by omega⟩, ?_⟩
  exact (c8_prescrimp_extension [1, 1, 1, 0, 0, 0, 1, 1, 1]
    (List.replicate 7 0) (List.replicate 7 1) 3 1 1
    [(F.fin 4, 2), (F.pinf, -1), (F.fin 4, 0), (F.pinf, -1),
      (F.pinf, -1), (F.pinf, -1), (F.pinf, -1)] 0
    (by decide) (by decide) (by decide) (by decide) (by omega)).1

end

/-! The range splitter. -/

theorem cumCount_snoc (m n : ℤ) (orders : List ℤ) :
    ∀ (d s j : ℕ), j - s = d → s ≤ j → j < orders.length →
    cumCount m n orders s (j + 1)
      = cumCount m n orders s j + diagCount m n (orders.getD j 0) := by
  intro d
  induction d with
  | zero =>
      intro s j hd hsj hlen
      obtain rfl : s = j := by omega
      rw [cumCount_stop_le m n orders s s (le_refl s),
        cumCount_cons m n orders hlen (by omega),
        cumCount_stop_le m n orders (s + 1) (s + 1) (le_refl _)]
      omega
  | succ d ih =>
      intro s j hd hsj hlen
      have hs : s < orders.length := by omega
      rw [cumCount_cons m n orders hs (by omega),
        cumCount_cons m n orders hs (by omega),
        ih (s + 1) j (by omega) (by omega) hlen]
      ring

theorem cumCount_split (m n : ℤ) (orders : List ℤ) {s t j : ℕ}
    (hst : s ≤ t) (htj : t ≤ j) :
    cumCount m n orders s j
      = cumCount m n orders s t + cumCount m n orders t j := by
  unfold cumCount
  have hdr : List.drop (t - s) (List.drop s orders) = List.drop t orders := by
    rw [List.drop_drop]
    congr 1
    omega
  have hsplit2 : (orders.drop s).take (j - s)
      = (orders.drop s).take (t - s) ++ (orders.drop t).take (j - t) := by
    calc (orders.drop s).take (j - s)
        = (orders.drop s).take ((t - s) + (j - t)) := by
          congr 1
          omega
      _ = (orders.drop s).take (t - s)
          ++ ((orders.drop s).drop (t - s)).take (j - t) := List.take_add _ _ _
      _ = (orders.drop s).take (t - s) ++ (orders.drop t).take (j - t) := by
          rw [hdr]
  rw [hsplit2, List.map_append, List.sum_append]

theorem cumCount_nonneg (m n : ℤ) (orders : List ℤ)
    (hvalid : ∀ k ∈ orders, k ≤ n - m + 1) (s j : ℕ) :
    0 ≤ cumCount m n orders s j := by
  unfold cumCount
  apply List.sum_nonneg
  intro x hx
  obtain ⟨k, hk, rfl⟩ := List.mem_map.mp hx
  have := hvalid k (List.mem_of_mem_drop (List.mem_of_mem_take hk))
  unfold diagCount
  omega

theorem cumCount_mono (m n : ℤ) (orders : List ℤ)
    (hvalid : ∀ k ∈ orders, k ≤ n - m + 1) {s j j' : ℕ} (hj : j ≤ j') :
    cumCount m n orders s j ≤ cumCount m n orders s j' := by
  by_cases hs : s ≤ j
  · rw [cumCount_split m n orders hs hj]
    have := cumCount_nonneg m n orders hvalid j j'
    omega
  · rw [cumCount_stop_le m n orders s j (by omega)]
    exact cumCount_nonneg m n orders hvalid s j'

theorem rangeCount_eq_cumCount (m n : ℤ) (orders : List ℤ) (s j : ℕ) :
    rangeCount m n orders (s, j) = cumCount m n orders s j := rfl

theorem flattenRanges_append (rs1 rs2 : List (ℕ × ℕ)) :
    flattenRanges (rs1 ++ rs2) = flattenRanges rs1 ++ flattenRanges rs2 := by
  unfold flattenRanges
  rw [List.map_append, List.flatten_append]

theorem flattenRanges_replicate_zero (k : ℕ) :
    flattenRanges (List.replicate k ((0 : ℕ), (0 : ℕ))) = [] := by
  induction k with
  | zero => rfl
  | succ k2 ih =>
      rw [List.replicate_succ]
      unfold flattenRanges at ih ⊢
      rw [List.map_cons, List.flatten_cons, ih]
      rfl

theorem set_rows_replicate {rows0 : List (ℕ × ℕ)} {nSplit : ℕ}
    (hlt : rows0.length < nSplit) (v : ℕ × ℕ) :
    (rows0 ++ List.replicate (nSplit - rows0.length) ((0 : ℕ), (0 : ℕ))).set
        rows0.length v
      = (rows0 ++ [v])
        ++ List.replicate (nSplit - (rows0.length + 1)) ((0 : ℕ), (0 : ℕ)) := by
  rw [List.set_append, if_neg (by omega)]
  have hk : nSplit - rows0.length = (nSplit - (rows0.length + 1)) + 1 := by
    omega
  rw [Nat.sub_self, hk, List.replicate_succ, List.set_cons_zero,
    List.append_assoc]
  rfl

theorem flattenRanges_singleton (r : ℕ × ℕ) :
    flattenRanges [r] = List.range' r.1 (r.2 - r.1) := by
  unfold flattenRanges
  simp

theorem splitStep_inv (nSplit : ℕ) (m n : ℤ) (orders : List ℤ) (start : ℕ)
    (per : ℚ) (stop : ℕ)
    (hvalid : ∀ k ∈ orders, k ≤ n - m + 1)
    (hsplit : 1 ≤ nSplit)
    (hper : 0 ≤ per)
    (htotal : ((cumCount m n orders start stop : ℤ) : ℚ) ≤ per * (nSplit : ℚ))
    (cur : ℕ) (hc1 : start ≤ cur) (hc2 : cur < stop)
    (hstoplen : stop ≤ orders.length)
    (st : SplitState)
    (hinv : splitInv nSplit m n orders start per cur st) :
    splitInv nSplit m n orders start per (cur + 1)
      (splitStep m n orders per stop st cur) := by
  obtain ⟨tbl, ri, rstart, acc⟩ := st
  obtain ⟨rows0, h1, h2, h3, h4, h5, h6, h7, h8, h9⟩ := hinv
  simp only at h1 h2 h3 h4 h5 h6 h7 h8 h9
  have hacc' : acc + diagCount m n (orders.getD cur 0)
      = cumCount m n orders rstart (cur + 1) := by
    rw [cumCount_snoc m n orders (cur - rstart) rstart cur rfl h4 (by omega),
      h6]
  simp only [splitStep]
  by_cases hcut : ((acc + diagCount m n (orders.getD cur 0) : ℤ) : ℚ) > per
  · rw [if_pos hcut]
    have hrilt : rows0.length < nSplit := by
      rcases h9 with h9 | h9
      · have hm1 : cumCount m n orders start rstart
            ≤ cumCount m n orders start stop :=
          cumCount_mono m n orders hvalid (by omega)
        have hlt : per * (rows0.length : ℚ) < per * (nSplit : ℚ) := by
          calc per * (rows0.length : ℚ)
              < ((cumCount m n orders start rstart : ℤ) : ℚ) := h9
            _ ≤ ((cumCount m n orders start stop : ℤ) : ℚ) := by
                exact_mod_cast hm1
            _ ≤ per * (nSplit : ℚ) := htotal
        have hperpos : 0 < per := by
          rcases hper.lt_or_eq with h | h
          · exact h
          · rw [← h] at hlt
            simp at hlt
        have : (rows0.length : ℚ) < (nSplit : ℚ) :=
          (mul_lt_mul_left hperpos).mp hlt
        exact_mod_cast this
      · omega
    have hmin : min (cur + 1) stop = cur + 1 := by omega
    unfold splitInv
    dsimp only
    refine ⟨rows0 ++ [(rstart, cur + 1)], ?_, ?_, by omega, by omega, ?_, ?_,
      hper, ?_, ?_⟩
    · simp only [h1, h2, hmin]
      rw [set_rows_replicate hrilt]
      simp
    · simp only [List.length_append, List.length_singleton]
      omega
    · rw [flattenRanges_append, h5, flattenRanges_singleton]
      have h1m : start + 1 * (rstart - start) = rstart := by omega
      have := List.range'_append start (rstart - start) (cur + 1 - rstart) 1
      rw [h1m] at this
      rw [this]
      congr 1
      omega
    · rw [cumCount_stop_le m n orders (cur + 1) (cur + 1) (le_refl _)]
    · intro r hr
      rcases List.mem_append.mp hr with hr | hr
      · exact h8 r hr
      · rcases List.mem_singleton.mp hr with rfl
        refine ⟨by omega, ?_, ?_⟩
        · rw [rangeCount_eq_cumCount, ← hacc']
          exact hcut
        · rw [rangeCount_eq_cumCount, ← hacc']
          have hc : (cur + 1) - 1 = cur := by omega
          rw [hc]
          push_cast
          have h7q : ((acc : ℤ) : ℚ) ≤ per := h7
          linarith
    · left
      have hsum : cumCount m n orders start (cur + 1)
          = cumCount m n orders start rstart
            + cumCount m n orders rstart (cur + 1) :=
        cumCount_split m n orders h3 (by omega)
      have hq3 : ((cumCount m n orders start (cur + 1) : ℤ) : ℚ)
          = ((cumCount m n orders start rstart : ℤ) : ℚ)
            + ((cumCount m n orders rstart (cur + 1) : ℤ) : ℚ) := by
        exact_mod_cast hsum
      have hq4 : ((cumCount m n orders rstart (cur + 1) : ℤ) : ℚ)
          = ((acc : ℤ) : ℚ)
            + ((diagCount m n (orders.getD cur 0) : ℤ) : ℚ) := by
        exact_mod_cast hacc'.symm
      rcases h9 with h9 | h9
      · rw [List.length_append, List.length_singleton]
        push_cast at h9 hcut ⊢
        linarith
      · have hnil : rows0 = [] := List.length_eq_zero.mp h9
        have hrs : rstart = start := by
          rw [hnil] at h5
          have h5x : List.range' start (rstart - start) = [] := by
            rw [← h5]
            rfl
          have h5y : rstart - start = 0 := by
            by_contra hc0
            have : (List.range' start (rstart - start)).length = 0 := by
              rw [h5x]
              rfl
            rw [List.length_range'] at this
            omega
          omega
        have hzero : ((cumCount m n orders start rstart : ℤ) : ℚ) = 0 := by
          rw [hrs, cumCount_stop_le m n orders start start (le_refl _)]
          rfl
        rw [hnil]
        simp only [List.nil_append, List.length_singleton]
        push_cast at hcut ⊢
        linarith
  · rw [if_neg hcut]
    unfold splitInv
    dsimp only
    refine ⟨rows0, h1, h2, h3, by omega, h5, ?_, ?_, h8, h9⟩
    · exact hacc'
    · push_cast at hcut ⊢
      linarith [hcut]

theorem splitFold_inv (nSplit : ℕ) (m n : ℤ) (orders : List ℤ) (start : ℕ)
    (per : ℚ) (stop : ℕ)
    (hvalid : ∀ k ∈ orders, k ≤ n - m + 1)
    (hsplit : 1 ≤ nSplit)
    (hper : 0 ≤ per)
    (htotal : ((cumCount m n orders start stop : ℤ) : ℚ) ≤ per * (nSplit : ℚ))
    (hstoplen : stop ≤ orders.length) :
    ∀ (cnt cur : ℕ) (st : SplitState), start ≤ cur → cur + cnt ≤ stop →
    splitInv nSplit m n orders start per cur st →
    splitInv nSplit m n orders start per (cur + cnt)
      ((List.range' cur cnt).foldl (splitStep m n orders per stop) st) := by
  intro cnt
  induction cnt with
  | zero =>
      intro cur st _ _ hinv
      exact hinv
  | succ c ih =>
      intro cur st hcur hbound hinv
      rw [List.range'_succ, List.foldl_cons]
      have hstep := splitStep_inv nSplit m n orders start per stop hvalid
        hsplit hper htotal cur hcur (by omega) hstoplen st hinv
      have := ih (cur + 1) (splitStep m n orders per stop st cur)
        (by omega) (by omega) hstep
      have harith : cur + 1 + c = cur + (c + 1) := by omega
      rwa [harith] at this

theorem le_declStop (m n : ℤ) (orders : List ℤ) (start : ℕ) (pct : ℚ)
    (hstart : start ≤ orders.length) :
    start ≤ declStop m n orders start pct := by
  simp only [declStop]
  rcases hres : (List.range' start (orders.length - start)).find? (fun idx =>
      decide (((cumCount m n orders start (idx + 1) : ℤ) : ℚ)
        / (((orders.map (fun k => diagCount m n k)).sum : ℤ) : ℚ) > pct))
    with _ | idx
  · exact hstart
  · have hmem := List.mem_of_find?_eq_some hres
    rcases List.mem_range'.mp hmem with ⟨off, _, rfl⟩
    dsimp only
    omega

theorem declStop_le (m n : ℤ) (orders : List ℤ) (start : ℕ) (pct : ℚ) :
    declStop m n orders start pct ≤ orders.length := by
  simp only [declStop]
  rcases hres : (List.range' start (orders.length - start)).find? (fun idx =>
      decide (((cumCount m n orders start (idx + 1) : ℤ) : ℚ)
        / (((orders.map (fun k => diagCount m n k)).sum : ℤ) : ℚ) > pct))
    with _ | idx
  · exact le_refl _
  · have hmem := List.mem_of_find?_eq_some hres
    rcases List.mem_range'.mp hmem with ⟨off, hoff, rfl⟩
    dsimp only
    omega

/-- C5 (amended).  _get_orders_ranges produces exactly n_workers rows; read
in row order, the nonempty rows are contiguous and cover exactly
[start, stop) where stop is computed by _get_max_order_idx (rows that were
never cut remain (0, 0)); a new sub-range boundary is cut whenever the
running count strictly exceeds total / n_workers, so each worker's
accumulated distance count is at most total / n_workers plus the count of
its final diagonal.  The original claim's two-sided balance fails: the
final worker only receives the remainder and may fall short of
total / n_workers by more than any diagonal's length. -/
theorem c5_split_ranges_amended (nSplit : ℕ) (m n : ℤ) (orders : List ℤ)
    (start : ℕ) (pct : ℚ)
    (hvalid : ∀ k ∈ orders, k ≤ n - m + 1)
    (hsplit : 1 ≤ nSplit)
    (hstart : start ≤ orders.length) :
    (getOrdersRanges nSplit m n orders start pct).length = nSplit
    ∧ flattenRanges (getOrdersRanges nSplit m n orders start pct)
      = List.range' start ((getMaxOrderIdx m n orders start pct).1 - start)
    ∧ ∀ r ∈ getOrdersRanges nSplit m n orders start pct,
        ((rangeCount m n orders r : ℤ) : ℚ)
          ≤ (((getMaxOrderIdx m n orders start pct).2 : ℤ) : ℚ) / (nSplit : ℚ)
            + (if r.1 < r.2
              then ((diagCount m n (orders.getD (r.2 - 1) 0) : ℤ) : ℚ)
              else 0) := by
  have hdecl := getMaxOrderIdx_eq_decl m n orders start pct
  set stop := declStop m n orders start pct with hstopdef
  have hstop1 : start ≤ stop := le_declStop m n orders start pct hstart
  have hstop2 : stop ≤ orders.length := declStop_le m n orders start pct
  set per : ℚ := ((cumCount m n orders start stop : ℤ) : ℚ) / (nSplit : ℚ)
    with hperdef
  have hcumnn : (0 : ℤ) ≤ cumCount m n orders start stop :=
    cumCount_nonneg m n orders hvalid start stop
  have hper : 0 ≤ per := by
    apply div_nonneg
    · exact_mod_cast hcumnn
    · positivity
  have hnS : ((nSplit : ℚ)) ≠ 0 := by
    positivity
  have htotal : ((cumCount m n orders start stop : ℤ) : ℚ)
      = per * (nSplit : ℚ) := by
    rw [hperdef, div_mul_cancel₀ _ hnS]
  have hinit : splitInv nSplit m n orders start per start
      (List.replicate nSplit ((0 : ℕ), (0 : ℕ)), 0, start, 0) := by
    refine ⟨[], by simp, rfl, le_refl _, le_refl _, ?_, ?_, hper, ?_, ?_⟩
    · unfold flattenRanges
      simp
    · rw [cumCount_stop_le m n orders start start (le_refl _)]
    · intro r hr
      simp at hr
    · right
      rfl
  have hfold := splitFold_inv nSplit m n orders start per stop hvalid hsplit
    hper (le_of_eq htotal) hstop2 (stop - start) start
    (List.replicate nSplit ((0 : ℕ), (0 : ℕ)), 0, start, 0)
    (le_refl _) (by omega) hinit
  have harith : start + (stop - start) = stop := by omega
  rw [harith] at hfold
  obtain ⟨rows0, h1, h2, h3, h4, h5, h6, h7, h8, h9⟩ := hfold
  have hrilt : rows0.length < nSplit := by
    rcases h9 with h9 | h9
    · have hm1 : cumCount m n orders start
          ((List.range' start (stop - start)).foldl
            (splitStep m n orders per stop)
            (List.replicate nSplit ((0 : ℕ), (0 : ℕ)), 0, start, 0)).2.2.1
          ≤ cumCount m n orders start stop :=
        cumCount_mono m n orders hvalid h4
      have hlt : per * (rows0.length : ℚ) < per * (nSplit : ℚ) := by
        calc per * (rows0.length : ℚ)
            < _ := h9
          _ ≤ ((cumCount m n orders start stop : ℤ) : ℚ) := by
              exact_mod_cast hm1
          _ = per * (nSplit : ℚ) := htotal
      have hperpos : 0 < per := by
        rcases hper.lt_or_eq with h | h
        · exact h
        · rw [← h] at hlt
          simp at hlt
      have : (rows0.length : ℚ) < (nSplit : ℚ) :=
        (mul_lt_mul_left hperpos).mp hlt
      exact_mod_cast this
    · omega
  simp only [getOrdersRanges]
  rw [hdecl]
  dsimp only
  rw [← hperdef]
  set stfin := (List.range' start (stop - start)).foldl
    (splitStep m n orders per stop)
    (List.replicate nSplit ((0 : ℕ), (0 : ℕ)), 0, start, 0) with hstfin
  rw [h1, h2, set_rows_replicate hrilt]
  have hrows2 : rows0.length + 1 ≤ nSplit := by omega
  refine ⟨?_, ?_, ?_⟩
  · simp only [List.length_append, List.length_replicate,
      List.length_singleton]
    omega
  · rw [flattenRanges_append, flattenRanges_append, flattenRanges_singleton,
      flattenRanges_replicate_zero, h5]
    simp only [List.append_nil]
    have h1m : start + 1 * (stfin.2.2.1 - start) = stfin.2.2.1 := by omega
    have hra := List.range'_append start (stfin.2.2.1 - start)
      (stop - stfin.2.2.1) 1
    rw [h1m] at hra
    rw [hra]
    congr 1
    omega
  · intro r hr
    rcases List.mem_append.mp hr with hr | hr
    · rcases List.mem_append.mp hr with hr | hr
      · obtain ⟨hr1, hr2, hr3⟩ := h8 r hr
        rw [if_pos hr1]
        exact hr3
      · rcases List.mem_singleton.mp hr with rfl
        by_cases hne : stfin.2.2.1 < stop
        · rw [if_pos hne]
          have hcnt : ((rangeCount m n orders (stfin.2.2.1, stop) : ℤ) : ℚ)
              ≤ per := by
            rw [rangeCount_eq_cumCount, ← h6]
            exact h7
          have hd : (0 : ℤ) ≤ diagCount m n (orders.getD (stop - 1) 0) := by
            have hmem : orders.getD (stop - 1) 0 ∈ orders := by
              rw [List.getD_eq_getElem orders 0 (by omega)]
              exact List.getElem_mem _
            have := hvalid _ hmem
            unfold diagCount
            omega
          have hdq : (0 : ℚ) ≤ ((diagCount m n (orders.getD
              ((stfin.2.2.1, stop).2 - 1) 0) : ℤ) : ℚ) := by
            exact_mod_cast hd
          linarith
        · rw [if_neg hne]
          rw [rangeCount_eq_cumCount,
            cumCount_stop_le m n orders _ _ (by omega)]
          simpa using hper
    · have hr0 : r = ((0 : ℕ), (0 : ℕ)) := List.eq_of_mem_replicate hr
      rw [hr0]
      rw [if_neg (by omega)]
      rw [rangeCount_eq_cumCount, cumCount_stop_le m n orders 0 0 (le_refl _)]
      simpa using hper


section

attribute [local semireducible] Rat.add Rat.mul Rat.sub Rat.inv Rat.ofScientific

set_option maxRecDepth 100000

/-- C5: the claim's symmetric balance bound fails. With m = 4, n = 12,
orders = [4, 5, 2, 3, 6, 7, 8], start = 0, percentage = 1 and three
workers, _get_orders_ranges cuts [(0, 3), (3, 6), (6, 7)]; the final
worker's range (6, 7) accumulates only 2 expected distances while
total / n_split = 35 / 3, a shortfall of 29 / 3, which exceeds every
diagonal's length (the largest count of any diagonal here is 8): the
final worker's count is not within one diagonal's length of the even
share. -/
theorem c5_split_ranges_counterexample :
    getOrdersRanges 3 4 12 [4, 5, 2, 3, 6, 7, 8] 0 1
      = [(0, 3), (3, 6), (6, 7)]
    ∧ (((getMaxOrderIdx 4 12 [4, 5, 2, 3, 6, 7, 8] 0 1).2 : ℤ) : ℚ)
          / ((3 : ℕ) : ℚ)
        - ((rangeCount 4 12 [4, 5, 2, 3, 6, 7, 8] ((6 : ℕ), (7 : ℕ)) : ℤ) : ℚ)
      > (([4, 5, 2, 3, 6, 7, 8] : List ℤ).map
          (fun k => ((diagCount 4 12 k : ℤ) : ℚ))).foldr max 0 := by
  decide

/-- Witness for the amended C5 at the counterexample's input. -/
theorem c5_split_ranges_amended_witness :
    (∀ k ∈ ([4, 5, 2, 3, 6, 7, 8] : List ℤ), k ≤ 12 - 4 + 1)
    ∧ (1 ≤ (3 : ℕ))
    ∧ ((0 : ℕ) ≤ ([4, 5, 2, 3, 6, 7, 8] : List ℤ).length)
    ∧ ((getOrdersRanges 3 4 12 [4, 5, 2, 3, 6, 7, 8] 0 1).length = 3
      ∧ flattenRanges (getOrdersRanges 3 4 12 [4, 5, 2, 3, 6, 7, 8] 0 1)
        = List.range' 0
          ((getMaxOrderIdx 4 12 [4, 5, 2, 3, 6, 7, 8] 0 1).1 - 0)
      ∧ ∀ r ∈ getOrdersRanges 3 4 12 [4, 5, 2, 3, 6, 7, 8] 0 1,
          ((rangeCount 4 12 [4, 5, 2, 3, 6, 7, 8] r : ℤ) : ℚ)
            ≤ (((getMaxOrderIdx 4 12 [4, 5, 2, 3, 6, 7, 8] 0 1).2 : ℤ) : ℚ)
                / ((3 : ℕ) : ℚ)
              + (if r.1 < r.2
                then ((diagCount 4 12
                  (([4, 5, 2, 3, 6, 7, 8] : List ℤ).getD (r.2 - 1) 0)
                    : ℤ) : ℚ)
                else 0)) :=
  ⟨by decide, by decide, by decide,
    c5_split_ranges_amended 3 4 12 [4, 5, 2, 3, 6, 7, 8] 0 1
      (by decide) (by decide) (by decide)⟩

end

/-! The self-match exclusion invariant through the whole pipeline. -/

theorem F.nonFinite_sub_fin {x : F} (h : x.nonFinite) (q : ℚ) :
    (x - F.fin q).nonFinite := by
  rcases h with rfl | rfl | rfl
  · exact Or.inl rfl
  · exact Or.inr (Or.inl rfl)
  · exact Or.inr (Or.inr rfl)

theorem F.nonFinite_recur {x : F} (h : x.nonFinite) (a b : ℚ) :
    (x - F.fin a + F.fin b).nonFinite := by
  rcases h with rfl | rfl | rfl
  · exact Or.inl rfl
  · exact Or.inr (Or.inl rfl)
  · exact Or.inr (Or.inr rfl)

theorem F.nonFinite_div_fin {x : F} (h : x.nonFinite) (q : ℚ) :
    (x / F.fin q).nonFinite := by
  rcases h with rfl | rfl | rfl
  · exact Or.inl rfl
  · show (if 0 ≤ q then F.pinf else F.ninf).nonFinite
    split_ifs
    · exact Or.inr (Or.inl rfl)
    · exact Or.inr (Or.inr rfl)
  · show (if 0 ≤ q then F.ninf else F.pinf).nonFinite
    split_ifs
    · exact Or.inr (Or.inr rfl)
    · exact Or.inr (Or.inl rfl)

theorem F.nonFinite_fin_sub (q : ℚ) {x : F} (h : x.nonFinite) :
    (F.fin q - x).nonFinite := by
  rcases h with rfl | rfl | rfl
  · exact Or.inl rfl
  · exact Or.inr (Or.inr rfl)
  · exact Or.inr (Or.inl rfl)

theorem F.nonFinite_fin_mul (q : ℚ) {x : F} (h : x.nonFinite) :
    (F.fin q * x).nonFinite := by
  rcases h with rfl | rfl | rfl
  · exact Or.inl rfl
  · show (if q = 0 then F.nan else if 0 < q then F.pinf else F.ninf).nonFinite
    split_ifs
    · exact Or.inl rfl
    · exact Or.inr (Or.inl rfl)
    · exact Or.inr (Or.inr rfl)
  · show (if q = 0 then F.nan else if 0 < q then F.ninf else F.pinf).nonFinite
    split_ifs
    · exact Or.inl rfl
    · exact Or.inr (Or.inr rfl)
    · exact Or.inr (Or.inl rfl)

theorem F.nonFinite_mul_fin {x : F} (h : x.nonFinite) (q : ℚ) :
    (x * F.fin q).nonFinite := by
  rcases h with rfl | rfl | rfl
  · exact Or.inl rfl
  · show (if q = 0 then F.nan else if 0 < q then F.pinf else F.ninf).nonFinite
    split_ifs
    · exact Or.inl rfl
    · exact Or.inr (Or.inl rfl)
    · exact Or.inr (Or.inr rfl)
  · show (if q = 0 then F.nan else if 0 < q then F.ninf else F.pinf).nonFinite
    split_ifs
    · exact Or.inl rfl
    · exact Or.inr (Or.inr rfl)
    · exact Or.inr (Or.inl rfl)

theorem F.nonFinite_add_fin {x : F} (h : x.nonFinite) (q : ℚ) :
    (x + F.fin q).nonFinite := by
  rcases h with rfl | rfl | rfl
  · exact Or.inl rfl
  · exact Or.inr (Or.inl rfl)
  · exact Or.inr (Or.inr rfl)

theorem F.lt_fabs_nonFinite {x : F} (h : x.nonFinite) (y : F) :
    F.lt (F.fabs x) y = false := by
  rcases h with rfl | rfl | rfl
  · exact F.lt_nan_left y
  · exact F.lt_pinf_left y
  · exact F.lt_pinf_left y

/-- A squared distance computed from a non-finite dot product never wins a
strict IEEE comparison: it is +inf (degenerate sigma), or the absolute value
of a non-finite product, which is NaN or +inf. -/
theorem calcSqDist_lt_false {m : ℕ} {QT : F} (h : QT.nonFinite)
    (μi σi μj σj : ℚ) (y : F) :
    F.lt (calcSqDist m QT μi σi μj σj) y = false := by
  unfold calcSqDist
  split_ifs with hσ
  · exact F.lt_pinf_left y
  · show F.lt (F.fabs (F.fin (2 * m)
      * (F.fin 1 - (QT - F.fin (m * μi * μj)) / F.fin (m * σi * σj)))) y
        = false
    exact F.lt_fabs_nonFinite
      (F.nonFinite_fin_mul _
        (F.nonFinite_fin_sub _
          (F.nonFinite_div_fin (F.nonFinite_sub_fin h _) _))) y

theorem getElem?_some_lt {α : Type} {t : List α} {p : ℕ} {c : α}
    (hc : t[p]? = some c) : p < t.length := by
  by_contra hcon
  rw [List.getElem?_eq_none (by omega)] at hc
  cases hc

theorem exclInv_getD_of {e : ℤ} {t : Tbl}
    (h : ∀ p, p < t.length → (t.getD p (F.pinf, -1)).2 ≠ -1 →
      e < |(t.getD p (F.pinf, -1)).2 - (p : ℤ)|) : exclInv e t := by
  intro p c hc hne
  have hp : p < t.length := getElem?_some_lt hc
  have hcd : t.getD p (F.pinf, -1) = c := by
    rw [List.getD_eq_getElem?_getD, hc, Option.getD_some]
  have := h p hp
  rw [hcd] at this
  exact this hne

theorem exclInv_getD {e : ℤ} {t : Tbl} (h : exclInv e t) (p : ℕ)
    (hp : p < t.length) :
    (t.getD p (F.pinf, -1)).2 ≠ -1 →
      e < |(t.getD p (F.pinf, -1)).2 - (p : ℤ)| := by
  intro hne
  have hc : t[p]? = some (t.getD p (F.pinf, -1)) := by
    rw [List.getD_eq_getElem?_getD, List.getElem?_eq_getElem hp,
      Option.getD_some]
  exact h p _ hc hne

theorem exclInv_replicate {α : Type} (e : ℤ) (l : ℕ) (x : α) :
    exclInv e (List.replicate l (x, -1)) := by
  intro p c hc hne
  rw [List.getElem?_replicate] at hc
  split_ifs at hc with hp
  cases hc
  simp at hne

theorem exclInv_initTbl (e : ℤ) (l : ℕ) : exclInv e (initTbl l) :=
  exclInv_replicate e l F.pinf

theorem exclInv_pySetCell {e : ℤ} {t : Tbl} (h : exclInv e t) {q v : ℤ}
    (hq : 0 ≤ q) (hsep : e < |v - q|) (dv : F) :
    exclInv e (pySetCell t q (dv, v)) := by
  apply exclInv_getD_of
  intro p hp hne
  rw [pySetCell_length] at hp
  rw [getD_pySetCell] at hne ⊢
  split_ifs at hne ⊢ with hidx
  · have hpq : (p : ℤ) = q := by
      rw [pyIdx_nonneg _ _ hq] at hidx
      split_ifs at hidx with h2
      cases hidx
      omega
    rw [hpq]
    exact hsep
  · exact exclInv_getD h p hp hne

theorem exclInv_condSet {e : ℤ} {t : Tbl} (h : exclInv e t) (g : Prop)
    [Decidable g] {q v : ℤ} (dv : F)
    (hg : g → 0 ≤ q ∧ e < |v - q|) :
    exclInv e (if g then pySetCell t q (dv, v) else t) := by
  split_ifs with hgg
  · exact exclInv_pySetCell h (hg hgg).1 (hg hgg).2 dv
  · exact h

theorem exclInv_foldl {α : Type} {e : ℤ} (f : Tbl → α → Tbl)
    (hf : ∀ (t : Tbl) (x : α), exclInv e t → exclInv e (f t x))
    (l : List α) : ∀ t : Tbl, exclInv e t → exclInv e (l.foldl f t) := by
  induction l with
  | nil => intro t h; exact h
  | cons x xs ih =>
      intro t h
      exact ih (f t x) (hf t x h)

/-- Both writes of one diagonal-walk iteration are guarded by
i < i + k - 1 - excl_zone, which forces the recorded separation k - 1 to
exceed the zone width and keeps both written rows non-negative. -/
theorem exclInv_diagStep (T μ σ : List ℚ) (m : ℕ) {e : ℤ} (he : 0 ≤ e)
    (k : ℤ) {t : Tbl} (h : exclInv e t) (i : ℕ) :
    exclInv e (diagStep T μ σ m e k t i) := by
  simp only [diagStep]
  apply exclInv_condSet
  · apply exclInv_condSet h
    intro hg
    refine ⟨Int.natCast_nonneg i, ?_⟩
    have h1 : (i : ℤ) + k - 1 - (i : ℤ) = k - 1 := by ring
    rw [h1]
    rcases abs_cases ((k : ℤ) - 1) with ⟨h2, _⟩ | ⟨h2, _⟩ <;> omega
  · intro hg
    have hk : e < k - 1 := by omega
    refine ⟨by omega, ?_⟩
    have h1 : (i : ℤ) - ((i : ℤ) + k - 1) = -(k - 1) := by ring
    rw [h1, abs_neg]
    rcases abs_cases ((k : ℤ) - 1) with ⟨h2, _⟩ | ⟨h2, _⟩ <;> omega

theorem exclInv_walkDiag (T μ σ : List ℚ) (m : ℕ) {e : ℤ} (he : 0 ≤ e)
    (k : ℤ) {t : Tbl} (h : exclInv e t) :
    exclInv e (walkDiag T μ σ m e k t) :=
  exclInv_foldl _ (fun t i ht => exclInv_diagStep T μ σ m he k ht i) _ t h

theorem exclInv_computeDiagonal (T μ σ : List ℚ) (m : ℕ) {e : ℤ} (he : 0 ≤ e)
    (orders : List ℤ) (a b : ℕ) {t : Tbl} (h : exclInv e t) :
    exclInv e (computeDiagonal T μ σ m e orders a b t) :=
  exclInv_foldl _ (fun t k ht => exclInv_walkDiag T μ σ m he k ht) _ t h

/-- An element-wise merge that always keeps one of the two cells preserves
the exclusion invariant. -/
theorem exclInv_zipWith_choice {α : Type} {e : ℤ}
    (f : (α × ℤ) → (α × ℤ) → (α × ℤ))
    (hf : ∀ a b, f a b = a ∨ f a b = b)
    {A B : List (α × ℤ)} (hA : exclInv e A) (hB : exclInv e B) :
    exclInv e (List.zipWith f A B) := by
  intro p c hc hne
  have hp : p < (List.zipWith f A B).length := getElem?_some_lt hc
  have hpa : p < A.length := by
    rw [List.length_zipWith] at hp
    omega
  have hpb : p < B.length := by
    rw [List.length_zipWith] at hp
    omega
  rw [List.getElem?_eq_getElem hp, Option.some_inj] at hc
  rw [List.getElem_zipWith] at hc
  rcases hf (A[p]) (B[p]) with hfa | hfa
  · rw [hfa] at hc
    exact hA p c (by rw [List.getElem?_eq_getElem hpa, hc]) hne
  · rw [hfa] at hc
    exact hB p c (by rw [List.getElem?_eq_getElem hpb, hc]) hne

theorem exclInv_mergeTbl {e : ℤ} {A B : Tbl} (hA : exclInv e A)
    (hB : exclInv e B) : exclInv e (mergeTbl A B) := by
  apply exclInv_zipWith_choice mergeCell _ hA hB
  intro a b
  unfold mergeCell
  split_ifs
  · exact Or.inr rfl
  · exact Or.inl rfl

theorem exclInv_mergeOut {e : ℤ} {out PI : List (Rt × ℤ)}
    (hout : exclInv e out) (hPI : exclInv e PI) :
    exclInv e (mergeOut out PI) := by
  apply exclInv_zipWith_choice _ _ hout hPI
  intro a b
  split_ifs
  · exact Or.inr rfl
  · exact Or.inl rfl

/-- Mapping the distance component (here: np.sqrt at the output boundary)
leaves the match indices, and hence the invariant, untouched. -/
theorem exclInv_map_fst {α β : Type} {e : ℤ} (g : α → β) {t : List (α × ℤ)}
    (h : exclInv e t) : exclInv e (t.map (fun c => (g c.1, c.2))) := by
  intro p c hc hne
  rw [List.getElem?_map] at hc
  rcases Option.map_eq_some'.mp hc with ⟨a, ha, rfl⟩
  exact h p a ha hne

theorem exclInv_foldl_mergeTbl {e : ℤ} {t0 : Tbl} (h0 : exclInv e t0)
    {ts : List Tbl} (hts : ∀ t ∈ ts, exclInv e t) :
    exclInv e (ts.foldl mergeTbl t0) := by
  induction ts generalizing t0 with
  | nil => exact h0
  | cons x xs ih =>
      exact ih (exclInv_mergeTbl h0 (hts x (List.mem_cons_self x xs)))
        (fun t ht => hts t (List.mem_cons_of_mem x ht))

theorem exclInv_scrimpPar (T μ σ : List ℚ) (m : ℕ) (orders : List ℤ)
    (ranges : List (ℕ × ℕ)) {e : ℤ} (he : 0 ≤ e) :
    exclInv e (scrimpPar T μ σ m orders ranges e) := by
  simp only [scrimpPar]
  apply exclInv_map_fst
  cases ranges with
  | nil => exact exclInv_initTbl e _
  | cons r rs =>
      simp only [List.map_cons]
      apply exclInv_foldl_mergeTbl
      · exact exclInv_computeDiagonal T μ σ m he orders r.1 r.2
          (exclInv_initTbl e _)
      · intro t ht
        rcases List.mem_map.mp ht with ⟨r2, _, rfl⟩
        exact exclInv_computeDiagonal T μ σ m he orders r2.1 r2.2
          (exclInv_initTbl e _)

theorem exclInv_scrimpGo (T μ σ : List ℚ) (m nThreads : ℕ) (orders : List ℤ)
    {e : ℤ} (he : 0 ≤ e) (pct : ℚ) :
    ∀ (r : ℕ) (out : List (Rt × ℤ)) (start : ℕ), exclInv e out →
      ∀ o ∈ scrimpGo T μ σ m nThreads orders e pct r out start, exclInv e o := by
  intro r
  induction r with
  | zero =>
      intro out start h o ho
      simp [scrimpGo] at ho
  | succ n ih =>
      intro out start h o ho
      simp only [scrimpGo] at ho
      have hout1 : exclInv e (mergeOut out (scrimpPar T μ σ m orders
          (getOrdersRanges nThreads m (T.length : ℤ) orders start pct) e)) :=
        exclInv_mergeOut h (exclInv_scrimpPar T μ σ m orders _ he)
      rcases List.mem_cons.mp ho with rfl | ho2
      · exact hout1
      · exact ih _ _ hout1 o ho2

theorem massSq_length (T μ σ : List ℚ) (m i : ℕ) :
    (massSq T μ σ m i).length = T.length - m + 1 := by
  simp [massSq]

theorem maskZone_length (D : List F) (l i : ℕ) (e : ℤ) :
    (maskZone D l i e).length = D.length := by
  simp [maskZone]

theorem maskZone_getD (D : List F) (l i : ℕ) (e : ℤ) (j : ℕ) :
    (maskZone D l i e).getD j F.pinf
      = if max 0 ((i : ℤ) - e) ≤ (j : ℤ) ∧ (j : ℤ) ≤ min (l : ℤ) ((i : ℤ) + e)
        then F.pinf else D.getD j F.pinf := by
  simp only [maskZone, List.getD_eq_getElem?_getD, List.getElem?_mapIdx]
  rcases ho : D[j]? with _ | d
  · simp only [Option.map_none', Option.getD_none]
    split_ifs <;> rfl
  · simp only [Option.map_some', Option.getD_some]

/-- A masked-row entry that is not +inf lies inside the series and strictly
outside the exclusion zone of i. -/
theorem maskZone_sep {D : List F} {l i : ℕ} {e : ℤ} (hDl : D.length = l)
    {j : ℕ} (hne : (maskZone D l i e).getD j F.pinf ≠ F.pinf) :
    j < l ∧ e < |(i : ℤ) - (j : ℤ)| := by
  rw [maskZone_getD] at hne
  split_ifs at hne with hz
  · exact absurd rfl hne
  · have hjD : j < D.length := by
      by_contra hcon
      rw [List.getD_eq_getElem?_getD, List.getElem?_eq_none (by omega)] at hne
      exact hne rfl
    refine ⟨by omega, ?_⟩
    rcases abs_cases ((i : ℤ) - (j : ℤ)) with ⟨ha, h0⟩ | ⟨ha, h0⟩ <;>
      rw [ha] <;> omega

/-- The entry of the masked row at the sampled position itself is +inf:
the position is inside its own exclusion zone (or past the row's end). -/
theorem maskZone_getD_self {D : List F} {l i : ℕ} {e : ℤ} (he : 0 ≤ e)
    (hDl : D.length = l) (hil : i ≤ l) :
    (maskZone D l i e).getD i F.pinf = F.pinf := by
  rw [maskZone_getD, if_pos]
  constructor <;> omega

theorem pyGetCell_pySetCell_self {t : Tbl} {q : ℤ} (hq : 0 ≤ q)
    (hlt : q < (t.length : ℤ)) (c : Cell) :
    pyGetCell (pySetCell t q c) q = c := by
  have hidx : pyIdx t.length q = some q.toNat := by
    rw [pyIdx_nonneg _ _ hq, if_pos hlt]
  rw [pyGetCell_of_pyIdx (by rw [pySetCell_length]; exact hidx)]
  rw [getD_pySetCell, if_pos hidx]

theorem pyGetCell_pySetCell_ne {t : Tbl} {q1 q2 : ℤ} (hq1 : 0 ≤ q1)
    (hq2 : 0 ≤ q2) (hne : q1 ≠ q2) (c : Cell) :
    pyGetCell (pySetCell t q1 c) q2 = pyGetCell t q2 := by
  unfold pyGetCell
  rw [pySetCell_length]
  rcases h2 : pyIdx t.length q2 with _ | j2
  · rfl
  · dsimp only
    rw [getD_pySetCell, if_neg]
    intro hc
    rw [pyIdx_nonneg _ _ hq1] at hc
    rw [pyIdx_nonneg _ _ hq2] at h2
    split_ifs at hc
    split_ifs at h2
    injection hc with hc3
    injection h2 with h23
    omega

/-- A strict-improvement write that can never fire leaves the table alone. -/
theorem condSet_lt_false {t : Tbl} {d : F}
    (hd : ∀ y, F.lt d y = false) (q v : ℤ) (cur : F) :
    (if F.lt d cur = true then pySetCell t q (d, v) else t) = t := by
  split_ifs with hcond
  · rw [hd cur] at hcond
    cases hcond
  · rfl

/-- With a non-finite running dot product, an extension step writes nothing:
the distance comes out NaN or +inf and loses every strict comparison. -/
theorem extStepFwd_nonFinite (T μ σ : List ℚ) (m : ℕ) (i j : ℤ)
    (st : F × Tbl) (k : ℕ) (h : st.1.nonFinite) :
    (extStepFwd T μ σ m i j st k).1.nonFinite
      ∧ (extStepFwd T μ σ m i j st k).2 = st.2 := by
  simp only [extStepFwd]
  refine ⟨F.nonFinite_recur h _ _, ?_⟩
  rw [condSet_lt_false
      (fun y => calcSqDist_lt_false (F.nonFinite_recur h _ _) _ _ _ _ y),
    condSet_lt_false
      (fun y => calcSqDist_lt_false (F.nonFinite_recur h _ _) _ _ _ _ y)]

theorem extStepBwd_nonFinite (T μ σ : List ℚ) (m : ℕ) (i j : ℤ)
    (st : F × Tbl) (k : ℕ) (h : st.1.nonFinite) :
    (extStepBwd T μ σ m i j st k).1.nonFinite
      ∧ (extStepBwd T μ σ m i j st k).2 = st.2 := by
  simp only [extStepBwd]
  refine ⟨F.nonFinite_recur h _ _, ?_⟩
  rw [condSet_lt_false
      (fun y => calcSqDist_lt_false (F.nonFinite_recur h _ _) _ _ _ _ y),
    condSet_lt_false
      (fun y => calcSqDist_lt_false (F.nonFinite_recur h _ _) _ _ _ _ y)]

theorem foldl_extStepFwd_nonFinite (T μ σ : List ℚ) (m : ℕ) (i j : ℤ)
    (ks : List ℕ) : ∀ st : F × Tbl, st.1.nonFinite →
    (ks.foldl (extStepFwd T μ σ m i j) st).1.nonFinite
      ∧ (ks.foldl (extStepFwd T μ σ m i j) st).2 = st.2 := by
  induction ks with
  | nil => intro st h; exact ⟨h, rfl⟩
  | cons x xs ih =>
      intro st h
      rw [List.foldl_cons]
      have hstep := extStepFwd_nonFinite T μ σ m i j st x h
      have hrest := ih _ hstep.1
      exact ⟨hrest.1, by rw [hrest.2, hstep.2]⟩

theorem foldl_extStepBwd_nonFinite (T μ σ : List ℚ) (m : ℕ) (i j : ℤ)
    (ks : List ℕ) : ∀ st : F × Tbl, st.1.nonFinite →
    (ks.foldl (extStepBwd T μ σ m i j) st).1.nonFinite
      ∧ (ks.foldl (extStepBwd T μ σ m i j) st).2 = st.2 := by
  induction ks with
  | nil => intro st h; exact ⟨h, rfl⟩
  | cons x xs ih =>
      intro st h
      rw [List.foldl_cons]
      have hstep := extStepBwd_nonFinite T μ σ m i j st x h
      have hrest := ih _ hstep.1
      exact ⟨hrest.1, by rw [hrest.2, hstep.2]⟩

theorem seedQT_pinf_nonFinite (μ σ : List ℚ) (m : ℕ) (i j : ℤ) :
    (seedQT μ σ m F.pinf i j).nonFinite := by
  unfold seedQT
  exact F.nonFinite_add_fin
    (F.nonFinite_mul_fin
      (F.nonFinite_fin_sub _
        (F.nonFinite_div_fin (Or.inr (Or.inl rfl)) 2)) _) _

/-- An extension step at a separated pair preserves the invariant: both
writes record the constant separation j - i. -/
theorem exclInv_extStepFwd (T μ σ : List ℚ) (m : ℕ) {e i j : ℤ}
    (hi : 0 ≤ i) (hj : 0 ≤ j) (hsep : e < |j - i|) (st : F × Tbl)
    (h : exclInv e st.2) (k : ℕ) :
    exclInv e (extStepFwd T μ σ m i j st k).2 := by
  simp only [extStepFwd]
  apply exclInv_condSet
  · apply exclInv_condSet h
    intro hg
    refine ⟨by omega, ?_⟩
    have h1 : j + (k : ℤ) - (i + (k : ℤ)) = j - i := by ring
    rw [h1]
    exact hsep
  · intro hg
    refine ⟨by omega, ?_⟩
    have h1 : (i : ℤ) + (k : ℤ) - (j + (k : ℤ)) = -(j - i) := by ring
    rw [h1, abs_neg]
    exact hsep

theorem exclInv_extStepBwd (T μ σ : List ℚ) (m : ℕ) {e i j : ℤ} (k : ℕ)
    (hik : (k : ℤ) ≤ i) (hjk : (k : ℤ) ≤ j) (hsep : e < |j - i|)
    (st : F × Tbl) (h : exclInv e st.2) :
    exclInv e (extStepBwd T μ σ m i j st k).2 := by
  simp only [extStepBwd]
  apply exclInv_condSet
  · apply exclInv_condSet h
    intro hg
    refine ⟨by omega, ?_⟩
    have h1 : j - (k : ℤ) - (i - (k : ℤ)) = j - i := by ring
    rw [h1]
    exact hsep
  · intro hg
    refine ⟨by omega, ?_⟩
    have h1 : (i : ℤ) - (k : ℤ) - (j - (k : ℤ)) = -(j - i) := by ring
    rw [h1, abs_neg]
    exact hsep

theorem exclInv_foldl_extStepFwd (T μ σ : List ℚ) (m : ℕ) {e i j : ℤ}
    (hi : 0 ≤ i) (hj : 0 ≤ j) (hsep : e < |j - i|) (ks : List ℕ) :
    ∀ st : F × Tbl, exclInv e st.2 →
      exclInv e ((ks.foldl (extStepFwd T μ σ m i j) st).2) := by
  induction ks with
  | nil => intro st h; exact h
  | cons x xs ih =>
      intro st h
      rw [List.foldl_cons]
      exact ih _ (exclInv_extStepFwd T μ σ m hi hj hsep st h x)

theorem exclInv_foldl_extStepBwd (T μ σ : List ℚ) (m : ℕ) {e i j : ℤ}
    (hsep : e < |j - i|) (ks : List ℕ)
    (hks : ∀ k ∈ ks, (k : ℤ) ≤ i ∧ (k : ℤ) ≤ j) :
    ∀ st : F × Tbl, exclInv e st.2 →
      exclInv e ((ks.foldl (extStepBwd T μ σ m i j) st).2) := by
  induction ks with
  | nil => intro st h; exact h
  | cons x xs ih =>
      intro st h
      rw [List.foldl_cons]
      have hx := hks x (List.mem_cons_self x xs)
      exact ih (fun k hk => hks k (List.mem_cons_of_mem x hk)) _
        (exclInv_extStepBwd T μ σ m x hx.1 hx.2 hsep st h)

/-- With a non-finite seed dot product neither extension fold writes: the
table comes back unchanged. -/
theorem extFolds_nonFinite (T μ σ : List ℚ) (m : ℕ) (i j : ℤ)
    (ksF ksB : List ℕ) (st : Tbl) (QT0 : F) (h0 : QT0.nonFinite) :
    ((ksB.foldl (extStepBwd T μ σ m i j)
      (QT0, ((ksF.foldl (extStepFwd T μ σ m i j) (QT0, st)).2))).2) = st := by
  rw [(foldl_extStepFwd_nonFinite T μ σ m i j ksF (QT0, st) h0).2]
  exact (foldl_extStepBwd_nonFinite T μ σ m i j ksB (QT0, st) h0).2

/-- The extension phase preserves the invariant: a best pair with a real
match keeps its separation at every offset, and a reset row (index -1,
distance +inf) seeds a non-finite dot product and writes nothing. -/
theorem exclInv_prescrimpExtend (T μ σ : List ℚ) (m s : ℕ) {e : ℤ}
    {st : Tbl} (h : exclInv e st) (i : ℕ)
    (hrow : ((pyGetCell st (i : ℤ)).2 = -1 ∧ (pyGetCell st (i : ℤ)).1 = F.pinf)
      ∨ (0 ≤ (pyGetCell st (i : ℤ)).2
          ∧ e < |(pyGetCell st (i : ℤ)).2 - (i : ℤ)|)) :
    exclInv e (prescrimpExtend T μ σ m s st i) := by
  simp only [prescrimpExtend]
  rcases hrow with ⟨hj, hPi⟩ | ⟨hj0, hsep⟩
  · rw [hj, hPi]
    rw [extFolds_nonFinite T μ σ m (i : ℤ) (-1) _ _ st
      (seedQT μ σ m F.pinf (i : ℤ) (-1))
      (seedQT_pinf_nonFinite μ σ m (i : ℤ) (-1))]
    exact h
  · refine exclInv_foldl_extStepBwd T μ σ m hsep _ ?_ _ ?_
    · intro k hk
      rcases List.mem_range'.mp hk with ⟨off, hoff, rfl⟩
      constructor <;> omega
    · exact exclInv_foldl_extStepFwd T μ σ m (Int.natCast_nonneg i) hj0
        hsep _ _ h

/-- The argmin write followed by the +inf reset write: rows other than i are
untouched, and row i records index -1. -/
theorem exclInv_doubleWrite {e : ℤ} {st : Tbl} (h : exclInv e st) (i : ℕ)
    (Pi : F) (ii : ℤ) :
    exclInv e (pySetCell (pySetCell st (i : ℤ) (Pi, ii)) (i : ℤ)
      (Pi, -1)) := by
  apply exclInv_getD_of
  intro p hp hne
  rw [pySetCell_length, pySetCell_length] at hp
  rw [getD_pySetCell, pySetCell_length] at hne ⊢
  split_ifs at hne ⊢ with hc
  · simp at hne
  · rw [getD_pySetCell] at hne ⊢
    rw [if_neg hc] at hne ⊢
    exact exclInv_getD h p hp hne

/-- One scan write: it fires only on an unmasked (non-+inf) distance, whose
position is therefore strictly outside the exclusion zone of i. -/
theorem exclInv_scanStep (T μ σ : List ℚ) (m i : ℕ) {e : ℤ} {l : ℕ}
    (hDl : l = T.length - m + 1) {t : Tbl} (h : exclInv e t) (j : ℕ) :
    exclInv e (if F.lt ((maskZone (massSq T μ σ m i) l i e).getD j F.pinf)
        (pyGetCell t (j : ℤ)).1 = true
      then pySetCell t (j : ℤ)
        ((maskZone (massSq T μ σ m i) l i e).getD j F.pinf, (i : ℤ))
      else t) := by
  apply exclInv_condSet h
  intro hg
  have hsep := maskZone_sep (by rw [massSq_length, hDl])
    (F.ne_pinf_of_lt hg)
  exact ⟨Int.natCast_nonneg j, hsep.2⟩

/-- The scan never rewrites the sampled row itself: its masked distance is
+inf (the row is inside its own exclusion zone), so the write never fires
there, and writes at other rows do not touch it. -/
theorem scan_pyGetCell_self (T μ σ : List ℚ) (m i : ℕ) {e : ℤ} (he : 0 ≤ e)
    {l : ℕ} (hDl : l = T.length - m + 1) (idxs : List ℕ) :
    ∀ t : Tbl, (∀ j ∈ idxs, j < l) →
    pyGetCell ((idxs.foldl (fun t j =>
      if F.lt ((maskZone (massSq T μ σ m i) l i e).getD j F.pinf)
          (pyGetCell t (j : ℤ)).1 = true
        then pySetCell t (j : ℤ)
          ((maskZone (massSq T μ σ m i) l i e).getD j F.pinf, (i : ℤ))
        else t) t)) (i : ℤ) = pyGetCell t (i : ℤ) := by
  induction idxs with
  | nil => intro t _; rfl
  | cons x xs ih =>
      intro t hidxs
      rw [List.foldl_cons,
        ih _ (fun j hj => hidxs j (List.mem_cons_of_mem x hj))]
      by_cases hxi : x = i
      · subst hxi
        split_ifs with hcond
        · rw [maskZone_getD_self he (by rw [massSq_length, hDl])
            (le_of_lt (hidxs x (List.mem_cons_self x xs))),
            F.lt_pinf_left] at hcond
          cases hcond
        · rfl
      · split_ifs with hcond
        · rw [pyGetCell_pySetCell_ne (Int.natCast_nonneg x)
            (Int.natCast_nonneg i) (by exact_mod_cast hxi)]
        · rfl

/-- One whole PreSCRIMP sample preserves the invariant. -/
theorem exclInv_prescrimpSample (T μ σ : List ℚ) (m s : ℕ) {e : ℤ}
    (he : 0 ≤ e) {st : Tbl} (h : exclInv e st) (i : ℕ) :
    exclInv e (prescrimpSample T μ σ m s e st i) := by
  simp only [prescrimpSample]
  apply exclInv_prescrimpExtend
  · -- the scanned table satisfies the invariant
    refine exclInv_foldl _
      (fun t j ht => exclInv_scanStep T μ σ m i rfl ht j) _ _ ?_
    by_cases hPinf : (maskZone (massSq T μ σ m i) (T.length - m + 1) i e).getD
        (argminF (maskZone (massSq T μ σ m i) (T.length - m + 1) i e)) F.pinf
        = F.pinf
    · rw [if_pos hPinf]
      exact exclInv_doubleWrite h i _ _
    · rw [if_neg hPinf]
      have hsep := maskZone_sep (massSq_length T μ σ m i) hPinf
      apply exclInv_pySetCell h (Int.natCast_nonneg i) _ _
      rw [abs_sub_comm]
      exact hsep.2
  · -- the sampled row records -1 with +inf, or a separated match
    rw [scan_pyGetCell_self T μ σ m i he rfl
      (List.range (T.length - m + 1)) _ (fun j hj => List.mem_range.mp hj)]
    by_cases hil : (i : ℤ) < ((st.length : ℕ) : ℤ)
    · by_cases hPinf : (maskZone (massSq T μ σ m i) (T.length - m + 1) i
          e).getD (argminF (maskZone (massSq T μ σ m i) (T.length - m + 1)
            i e)) F.pinf = F.pinf
      · left
        rw [if_pos hPinf]
        rw [pyGetCell_pySetCell_self (Int.natCast_nonneg i)
          (by rw [pySetCell_length]; exact hil)]
        exact ⟨rfl, hPinf⟩
      · right
        rw [if_neg hPinf]
        rw [pyGetCell_pySetCell_self (Int.natCast_nonneg i) hil]
        have hsep := maskZone_sep (massSq_length T μ σ m i) hPinf
        refine ⟨Int.natCast_nonneg _, ?_⟩
        rw [abs_sub_comm]
        exact hsep.2
    · left
      have hnone : pyIdx st.length (i : ℤ) = none := by
        rw [pyIdx_nonneg _ _ (Int.natCast_nonneg i), if_neg hil]
      have hnone1 : ∀ c : Cell,
          pyIdx (pySetCell st (i : ℤ) c).length (i : ℤ) = none := by
        intro c
        rw [pySetCell_length]
        exact hnone
      split_ifs with hPinf
      · rw [pySetCell_of_pyIdx_none (hnone1 _),
          pySetCell_of_pyIdx_none hnone,
          pyGetCell_coe_ge st i (by omega)]
        exact ⟨rfl, rfl⟩
      · rw [pySetCell_of_pyIdx_none hnone,
          pyGetCell_coe_ge st i (by omega)]
        exact ⟨rfl, rfl⟩

theorem exclInv_prescrimpRun (T μ σ : List ℚ) (m s : ℕ) (samples : List ℕ) :
    exclInv ⌈(m : ℚ) / 4⌉ (prescrimpRun T μ σ m s samples) := by
  simp only [prescrimpRun]
  apply exclInv_map_fst
  have he : (0 : ℤ) ≤ ⌈(m : ℚ) / 4⌉ := Int.ceil_nonneg (by positivity)
  exact exclInv_foldl _
    (fun t x ht => exclInv_prescrimpSample T μ σ m s he ht x) samples _
    (exclInv_initTbl _ _)

/-- C3.  Every snapshot (P, I) yielded by scrimp, with or without the
PreSCRIMP pass, satisfies the self-match exclusion invariant: for every
position p, a recorded match index I[p] is either -1 or lies strictly
farther than e = ceil(m / 4) from p.  The diagonal walk's two writes are
guarded by i < i + k - 1 - excl_zone, which forces the recorded separation
k - 1 beyond the zone; the PreSCRIMP whole-series scan only records
positions whose masked distance is not +inf, hence outside the zone; the
argmin row write is reset to -1 when its distance is +inf; and the
bidirectional extension preserves the constant separation of its best pair
(a reset row seeds a non-finite dot product and never writes). -/
theorem c3_exclusion_invariant (T0 : List F) (μ σ : List ℚ) (m nThreads : ℕ)
    (pct : ℚ) (pre : Bool) (s : ℕ) (orders : List ℤ) (samples : List ℕ)
    {out : List (Rt × ℤ)}
    (hout : out ∈ scrimpRun T0 μ σ m nThreads pct pre s orders samples) :
    exclInv ⌈(m : ℚ) / 4⌉ out := by
  have he : (0 : ℤ) ≤ ⌈(m : ℚ) / 4⌉ := Int.ceil_nonneg (by positivity)
  simp only [scrimpRun] at hout
  refine exclInv_scrimpGo (normT T0) μ σ m nThreads orders he
    (max (min pct 1) 0) _ _ _ ?_ out hout
  split_ifs with hpre
  · exact exclInv_mergeOut (exclInv_replicate _ _ _)
      (exclInv_prescrimpRun _ μ σ m s samples)
  · exact exclInv_replicate _ _ _

section

attribute [local semireducible] Rat.add Rat.mul Rat.sub Rat.inv Rat.ofScientific

set_option maxRecDepth 1000000

/-- Witness for C3 at the concrete two-round run: the first yielded
snapshot is a member of the run's yield list and satisfies the exclusion
invariant with e = ceil(3 / 4) = 1. -/
theorem c3_exclusion_invariant_witness :
    ((scrimpRun ([1, 1, 1, 0, 0, 0, 1, 1, 1].map F.fin)
        (List.replicate 7 0) (List.replicate 7 1) 3 2 (1 / 2) false 1
        [2, 3, 4, 5, 6, 7] []).getD 0 [])
      ∈ scrimpRun ([1, 1, 1, 0, 0, 0, 1, 1, 1].map F.fin)
        (List.replicate 7 0) (List.replicate 7 1) 3 2 (1 / 2) false 1
        [2, 3, 4, 5, 6, 7] []
    ∧ exclInv ⌈((3 : ℕ) : ℚ) / 4⌉
      ((scrimpRun ([1, 1, 1, 0, 0, 0, 1, 1, 1].map F.fin)
        (List.replicate 7 0) (List.replicate 7 1) 3 2 (1 / 2) false 1
        [2, 3, 4, 5, 6, 7] []).getD 0 []) :=
  ⟨by decide,
    c3_exclusion_invariant ([1, 1, 1, 0, 0, 0, 1, 1, 1].map F.fin)
      (List.replicate 7 0) (List.replicate 7 1) 3 2 (1 / 2) false 1
      [2, 3, 4, 5, 6, 7] [] (by decide)⟩

end

end Stumpy
